import Mathlib

set_option maxRecDepth 100000

/-!
Verification development for the Car(); in-memory patch system
(`src/patch/carPatcher.ts` of the carmilla-encryption-system repository).

The engine is embedded shallowly over `List Char`:

* `findMatchFrom` / `allMatches` / `markerCount` model the JavaScript global
  multiline regex `/^(\s*)Car\(\);\s*$/gm` as used by `content.match(...)`.
  ECMAScript semantics modelled precisely: `^` matches at offset 0 or right
  after a `'\n'`; the greedy `\s*` before `Car();` always consumes the maximal
  whitespace run (shorter prefixes end at a whitespace character, which cannot
  start `Car();`, so no backtracking arises); the trailing `\s*$` consumes the
  longest whitespace extension whose end is the string end or sits directly
  before a `'\n'`.  Note that ECMAScript `\s` includes `'\n'`, so a captured
  "indent" group may span preceding blank lines.
* `replaceLoopAux` / `jsReplaceAll` model `String.prototype.replace` with that
  regex and the replacement callback of `CarPatcher.loadAndPatch` (lines
  75-91), including the `if (patch)` truthiness test: an empty-string patch
  leaves the marker verbatim and does not advance `patchesApplied`.
* `generateFakePatches`, `shuffleArray`, `scanMarkers`, `loadAndPatchContent`,
  `loadAndPatch`, `runWithPatches` and `batchProcess` mirror the homonymous
  members of `CarPatcher`.  Randomness (`Math.random`, `crypto.randomBytes`)
  is passed in explicitly as an oracle; the `vm`-based `executePatched` and
  the filesystem are abstracted as explicit function parameters, since only
  their success/failure shape is observable to the patching logic.

Recursions that mirror the regex scan loop are written with an explicit fuel
argument (`s.length + 1` is always enough fuel: every match consumes at least
the six characters of `Car();`, and the scan position strictly increases),
so every definition computes by kernel reduction.
-/

namespace Carmilla

/-- ECMAScript WhiteSpace ∪ LineTerminator, the character class matched by
`\s` in a JavaScript regex and stripped by `String.prototype.trim`. -/
def isJsWs (c : Char) : Bool :=
  c == ' ' || c == '\t' || c == '\n' || c == '\r' || c == '\x0b' || c == '\x0c' ||
  c == '\u00A0' || c == '\u1680' ||
  (decide (0x2000 ≤ c.toNat) && decide (c.toNat ≤ 0x200a)) ||
  c == '\u2028' || c == '\u2029' || c == '\u202F' || c == '\u205F' ||
  c == '\u3000' || c == '\uFEFF'

/-- ECMAScript LineTerminator set: the characters after which a multiline
`^` matches and before which a multiline `$` matches. -/
def isLineTerm (c : Char) : Bool :=
  c == '\n' || c == '\r' || c == '\u2028' || c == '\u2029'

/-- The reserved marker token `Car();` (see `CAR_REGEX` in carPatcher.ts),
spelled as an explicit character list. -/
def carToken : List Char := ['C', 'a', 'r', '(', ')', ';']

/-- Split a character list at every character satisfying `p`; separators are
dropped and empty pieces kept — the JavaScript `split` discipline. -/
def splitP (p : Char → Bool) : List Char → List (List Char)
  | [] => [[]]
  | c :: cs =>
    if p c then [] :: splitP p cs
    else
      match splitP p cs with
      | [] => [[c]]
      | l :: ls => (c :: l) :: ls

/-- JavaScript `str.split('\n')` on a character list. -/
def splitNl : List Char → List (List Char) :=
  splitP (fun c => c == '\n')

/-- The document's lines under the full ECMAScript line-terminator set: the
line boundaries that the multiline anchors of `CAR_REGEX` observe, and the
"normalize line-ending variants" line notion of the specification. -/
def splitLines : List Char → List (List Char) :=
  splitP isLineTerm

/-- JavaScript `arr.join('\n')` on character lists (inverse of `splitNl`). -/
def joinNl : List (List Char) → List Char
  | [] => []
  | [l] => l
  | l :: ls => l ++ '\n' :: joinNl ls

/-- JavaScript `str.trim()`: strip leading and trailing whitespace. -/
def jsTrim (l : List Char) : List Char :=
  ((l.dropWhile isJsWs).reverse.dropWhile isJsWs).reverse

/-- Length of the maximal whitespace run at the head of a character list. -/
def wsRunLen : List Char → Nat
  | [] => 0
  | c :: cs => if isJsWs c then wsRunLen cs + 1 else 0

/-- Multiline `^` anchor: offset 0, or the previous character is a line
terminator. -/
def caretAt (s : List Char) (p : Nat) : Bool :=
  p == 0 || isLineTerm (s.getD (p - 1) '\x00')

/-- Multiline `$` anchor: the string end, or the position holds a line
terminator. -/
def endAnchorAt (s : List Char) (r : Nat) : Bool :=
  r == s.length || isLineTerm (s.getD r '\x00')

/-- Greedy search for the end of the trailing `\s*$` of `CAR_REGEX`: the
largest `r ≤ t + k` at which the `$` anchor holds (`k` starts as the length of
the whitespace run at `t`). -/
def findEndDown (s : List Char) (t : Nat) : Nat → Option Nat
  | 0 => if endAnchorAt s t then some t else none
  | k + 1 =>
    if endAnchorAt s (t + (k + 1)) then some (t + (k + 1))
    else findEndDown s t k

/-- End position of `\s*$` when matching starts at offset `t`. -/
def findEnd (s : List Char) (t : Nat) : Option Nat :=
  findEndDown s t (wsRunLen (s.drop t))

/-- Attempt to match `(\s*)Car\(\);\s*$` at anchor position `p`; returns the
offset `q` of `Car();` (so the capture group is `s[p..q)`) and the exclusive
match end `r`. -/
def tryMatchAt (s : List Char) (p : Nat) : Option (Nat × Nat) :=
  let q := p + wsRunLen (s.drop p)
  if (s.drop q).take 6 = carToken then
    (findEnd s (q + 6)).map (fun r => (q, r))
  else none

/-- Leftmost match of `CAR_REGEX` whose start is `≥ p`: fuelled scan over
candidate start positions. -/
def findMatchFromAux (s : List Char) : Nat → Nat → Option (Nat × Nat × Nat)
  | 0, _ => none
  | fuel + 1, p =>
    if s.length < p then none
    else if caretAt s p then
      match tryMatchAt s p with
      | some (q, r) => some (p, q, r)
      | none => findMatchFromAux s fuel (p + 1)
    else findMatchFromAux s fuel (p + 1)

/-- Leftmost match of `CAR_REGEX` at or after offset `i` (start, token
offset, exclusive end), as produced by the JavaScript regex engine. -/
def findMatchFrom (s : List Char) (i : Nat) : Option (Nat × Nat × Nat) :=
  findMatchFromAux s (s.length + 1 - i) i

/-- All matches of the global regex from offset `i` on, in scan order. -/
def allMatchesAux (s : List Char) : Nat → Nat → List (Nat × Nat × Nat)
  | 0, _ => []
  | fuel + 1, i =>
    match findMatchFrom s i with
    | none => []
    | some m => m :: allMatchesAux s fuel m.2.2

/-- All matches of `CAR_REGEX` in `s`, i.e. `content.match(this.CAR_REGEX)`. -/
def allMatches (s : List Char) : List (Nat × Nat × Nat) :=
  allMatchesAux s (s.length + 1) 0

/-- Marker count of a document: `matches ? matches.length : 0`. -/
def markerCount (s : List Char) : Nat :=
  (allMatches s).length

/-- Captured indent group of a match (whitespace before `Car();`). -/
def indentOf (s : List Char) (m : Nat × Nat × Nat) : List Char :=
  (s.drop m.1).take (m.2.1 - m.1)

/-- Full matched text of a match. -/
def matchedOf (s : List Char) (m : Nat × Nat × Nat) : List Char :=
  (s.drop m.1).take (m.2.2 - m.1)

/-- One line of the patch, re-indented as in carPatcher.ts line 84:
`line.trim() ? indent + line : line`. -/
def indentLine (indent line : List Char) : List Char :=
  if line.any (fun c => !isJsWs c) then indent ++ line else line

/-- Indentation-preserving rewrite of one patch fragment (lines 81-87):
`patch.split('\n').map(line => line.trim() ? indent + line : line).join('\n')`. -/
def indentPatch (indent patch : List Char) : List Char :=
  joinNl ((splitNl patch).map (indentLine indent))

/-- Replacement callback body of `loadAndPatch` (lines 76-90): takes the plan,
the current cursor (`patchesApplied`), the captured indent and the matched
text; yields the replacement chunk and the new cursor.  The JavaScript
`if (patch)` truthiness test makes an empty-string plan element keep the
marker verbatim without advancing the cursor. -/
def applyChunk (plan : List (List Char)) (k : Nat) (indent matched : List Char) :
    List Char × Nat :=
  if k < plan.length then
    if plan.getD k [] = [] then (matched, k)
    else (indentPatch indent (plan.getD k []), k + 1)
  else (matched, k)

/-- Fuelled model of `patchedContent.replace(this.CAR_REGEX, cb)` together
with the `patchesApplied` counter threaded through the callback. -/
def replaceLoopAux (s : List Char) (plan : List (List Char)) :
    Nat → Nat → Nat → List Char × Nat
  | 0, i, k => (s.drop i, k)
  | fuel + 1, i, k =>
    match findMatchFrom s i with
    | none => (s.drop i, k)
    | some m =>
      let ck := applyChunk plan k (indentOf s m) (matchedOf s m)
      let rest := replaceLoopAux s plan fuel m.2.2 ck.2
      ((s.drop i).take (m.1 - i) ++ ck.1 ++ rest.1, rest.2)

/-- The global replace of `loadAndPatch`: patched text and `patchesApplied`. -/
def jsReplaceAll (s : List Char) (plan : List (List Char)) : List Char × Nat :=
  replaceLoopAux s plan (s.length + 1) 0 0

/-- Randomness consumed by one `generateFakePatches` call: the hex strings
produced by the four `randomBytes(...).toString('hex')` template-literal
interpolations, the `Math.floor(Math.random() * 1000)` literal of the timer
template, and the per-iteration template draws `Math.floor(Math.random() * 5)`
(modelled as an arbitrary `Nat` reduced mod 5, the exact range of the
JavaScript expression). -/
structure DecoyRandomness where
  hex4a : List Char
  hex2 : List Char
  hex8 : List Char
  timerMs : Nat
  hex4b : List Char
  draws : Nat → Nat

/-- The five decoy templates of `generateFakePatches` (lines 178-184), each
instantiated once per call with that call's random tokens.  The third
template contains no random token at all. -/
def fakePatchTemplates (r : DecoyRandomness) : List (List Char) :=
  [ "console.log(\"Fake patch ".toList ++ r.hex4a ++ "\");".toList,
    "const fakeVar".toList ++ r.hex2 ++ " = \"".toList ++ r.hex8 ++ "\";".toList,
    "if (Math.random() > 0.5) \x7b console.log(\"Fake condition\"); \x7d".toList,
    "setTimeout(() => \x7b\x7d, ".toList ++ (Nat.repr r.timerMs).toList ++ ");".toList,
    "const fakeObj = \x7b id: \"".toList ++ r.hex4b ++ "\", value: Math.random() \x7d;".toList ]

/-- Loop body of `generateFakePatches` (lines 187-193): draw a template index
for iteration `i`, push the template if it is truthy. -/
def genFakeAux (pool : List (List Char)) (draws : Nat → Nat) : Nat → Nat → List (List Char)
  | _, 0 => []
  | i, n + 1 =>
    (match pool.getD (draws i % 5) [] with
     | [] => []
     | p => [p]) ++ genFakeAux pool draws (i + 1) n

/-- Model of `CarPatcher.generateFakePatches(count)` (lines 177-194). -/
def generateFakePatches (count : Nat) (r : DecoyRandomness) : List (List Char) :=
  genFakeAux (fakePatchTemplates r) r.draws 0 count

/-- Swap two positions of a list (out-of-range indices leave it unchanged;
the shuffle only ever uses in-range indices). -/
def swapIdx {α : Type} (l : List α) (i j : Nat) : List α :=
  match l.get? i, l.get? j with
  | some a, some b => (l.set i b).set j a
  | _, _ => l

/-- Fisher-Yates loop of `shuffleArray` (lines 199-208): for `i` from
`length - 1` down to `1`, swap index `i` with `j = Math.floor(Math.random() *
(i + 1))`, modelled as `rnd i % (i + 1)` — exactly the range of the
JavaScript expression. -/
def shuffleGo {α : Type} (rnd : Nat → Nat) : List α → Nat → List α
  | l, 0 => l
  | l, n + 1 => shuffleGo rnd (swapIdx l (n + 1) (rnd (n + 1) % (n + 2))) n

/-- Model of `CarPatcher.shuffleArray` on a copy of the input. -/
def shuffleArray {α : Type} (l : List α) (rnd : Nat → Nat) : List α :=
  shuffleGo rnd l (l.length - 1)

/-- Randomness consumed by one `loadAndPatch` call. -/
structure Oracle where
  decoy : DecoyRandomness
  shuffle : Nat → Nat

/-- Configuration record `PatchConfig` (lines 5-10). -/
structure PatchConfig where
  patches : List (List Char)
  randomizeOrder : Bool := false
  addFakePatches : Bool := false
  preserveOriginal : Bool := false

/-- Result record `PatchResult` (lines 12-18); the execution result of the
sandboxed run, when present, is kept abstract as a character list. -/
structure PatchResult where
  originalFile : List Char
  patchedFile : List Char
  patchesApplied : Nat
  executionResult : Option (List Char)
  errors : List (List Char)
deriving DecidableEq

/-- Error entry produced when a document holds no marker (line 52). -/
def noMarkersMsg : List Char := "No Car(); markers found in file".toList

/-- Combined plan before the optional shuffle (lines 56-63): the caller's
fragments, followed by `markerCount` decoys iff `addFakePatches`. -/
def prePlan (config : PatchConfig) (mc : Nat) (orc : Oracle) : List (List Char) :=
  if config.addFakePatches then config.patches ++ generateFakePatches mc orc.decoy
  else config.patches

/-- Plan handed to the replace loop (lines 56-68): `prePlan`, shuffled as a
whole iff `randomizeOrder`. -/
def plannedPatches (config : PatchConfig) (mc : Nat) (orc : Oracle) : List (List Char) :=
  if config.randomizeOrder then shuffleArray (prePlan config mc orc) orc.shuffle
  else prePlan config mc orc

/-- Pure core of `CarPatcher.loadAndPatch` (lines 40-100), applied to the
already-loaded document content. -/
def loadAndPatchContent (content : List Char) (config : PatchConfig) (orc : Oracle) :
    PatchResult :=
  let mc := markerCount content
  if mc = 0 then
    { originalFile := content, patchedFile := content, patchesApplied := 0,
      executionResult := none, errors := [noMarkersMsg] }
  else
    let res := jsReplaceAll content (plannedPatches config mc orc)
    { originalFile := content, patchedFile := res.1, patchesApplied := res.2,
      executionResult := none, errors := [] }

/-- `CarPatcher.loadAndPatch` including the surrounding try/catch: the
filesystem is an explicit `read` function from identities to either an error
message or the file content (lines 41 and 101-108). -/
def loadAndPatch (read : String → Except (List Char) (List Char)) (path : String)
    (config : PatchConfig) (orc : Oracle) : PatchResult :=
  match read path with
  | .error e =>
    { originalFile := [], patchedFile := [], patchesApplied := 0,
      executionResult := none,
      errors := ["Failed to load file: ".toList ++ e] }
  | .ok content => loadAndPatchContent content config orc

/-- `CarPatcher.runWithPatches` (lines 148-171); the `vm`-based
`executePatched` is abstracted as an explicit `exec` function from the
patched text to either a thrown message or a result value. -/
def runWithPatches (read : String → Except (List Char) (List Char))
    (exec : List Char → Except (List Char) (List Char)) (path : String)
    (config : PatchConfig) (orc : Oracle) : PatchResult :=
  let pr := loadAndPatch read path config orc
  if pr.errors ≠ [] then pr
  else
    match exec pr.patchedFile with
    | .ok v => { pr with executionResult := some v }
    | .error e => { pr with errors := pr.errors ++ ["Execution error: ".toList ++ e] }

/-- Model of `CarPatcher.scanMarkers` (lines 214-231) on loaded content:
1-based numbers of the lines whose trimmed text is exactly `Car();`. -/
def scanMarkers (content : List Char) : Nat × List Nat :=
  let locs := (splitNl content).enum.filterMap
    (fun li => if jsTrim li.2 = carToken then some (li.1 + 1) else none)
  (locs.length, locs)

/-- JavaScript `Map.prototype.set` on an insertion-ordered association list:
replace the value at an existing key in place, otherwise append.  (A JS `Map`
never holds a key twice, so replacing the first occurrence is exact.) -/
def mapSet : List (String × PatchResult) → String → PatchResult →
    List (String × PatchResult)
  | [], key, v => [(key, v)]
  | kv :: m, key, v => if kv.1 = key then (key, v) :: m else kv :: mapSet m key v

/-- JavaScript `Map.prototype.get` on the association-list model. -/
def mapGet : List (String × PatchResult) → String → Option PatchResult
  | [], _ => none
  | kv :: m, key => if kv.1 = key then some kv.2 else mapGet m key

/-- Loop of `CarPatcher.batchProcess` (lines 237-259); iteration `n` draws
the fresh per-call randomness `orcs n`.  `runWithPatches` is total in this
model (every failure is already captured inside the `PatchResult`), so the
`catch` arm of the source loop is unreachable and has no model. -/
def batchAux (read : String → Except (List Char) (List Char))
    (exec : List Char → Except (List Char) (List Char)) (config : PatchConfig)
    (orcs : Nat → Oracle) :
    List String → Nat → List (String × PatchResult) → List (String × PatchResult)
  | [], _, acc => acc
  | p :: ps, n, acc =>
    batchAux read exec config orcs ps (n + 1)
      (mapSet acc p (runWithPatches read exec p config (orcs n)))

/-- Model of `CarPatcher.batchProcess`. -/
def batchProcess (read : String → Except (List Char) (List Char))
    (exec : List Char → Except (List Char) (List Char)) (paths : List String)
    (config : PatchConfig) (orcs : Nat → Oracle) : List (String × PatchResult) :=
  batchAux read exec config orcs paths 0 []

/-- Cursor step of the replacement callback: how `patchesApplied` evolves at
one marker. -/
def stepCursor (plan : List (List Char)) (k : Nat) : Nat :=
  if k < plan.length ∧ plan.getD k [] ≠ [] then k + 1 else k

/-- Cursor value after a sequence of markers. -/
def cursorFold (plan : List (List Char)) : Nat → List (Nat × Nat × Nat) → Nat
  | k, [] => k
  | k, _ :: ms => cursorFold plan (stepCursor plan k) ms

/-- Replacement chunks emitted for a list of matches, starting at cursor `k`. -/
def chunksFrom (s : List Char) (plan : List (List Char)) :
    Nat → List (Nat × Nat × Nat) → List (List Char)
  | _, [] => []
  | k, m :: ms =>
    (applyChunk plan k (indentOf s m) (matchedOf s m)).1 ::
      chunksFrom s plan (applyChunk plan k (indentOf s m) (matchedOf s m)).2 ms

/-- Reassembled output text: the untouched segments of `s` interleaved with
the replacement chunks, one chunk per match. -/
def assemble (s : List Char) : Nat → List (Nat × Nat × Nat) → List (List Char) → List Char
  | i, [], _ => s.drop i
  | i, _ :: _, [] => s.drop i
  | i, m :: ms, c :: cs => (s.drop i).take (m.1 - i) ++ c ++ assemble s m.2.2 ms cs

/-- Number of line terminators before offset `q`, i.e. the 0-based line
number of the position. -/
def lineNumAt (s : List Char) (q : Nat) : Nat :=
  (s.take q).countP isLineTerm

/-- Last line of a character list: the maximal line-terminator-free suffix. -/
def lastLineOf (l : List Char) : List Char :=
  (l.reverse.takeWhile (fun c => !isLineTerm c)).reverse

/-- The whitespace consumed by the trailing `\s*$` of a match `m = (p, q, r)`:
the segment between the token end `q + 6` and the match end `r`. -/
def trailOf (s : List Char) (m : Nat × Nat × Nat) : List Char :=
  (s.drop (m.2.1 + 6)).take (m.2.2 - (m.2.1 + 6))

/-- The third decoy template: the only one holding no random token. -/
def staticDecoy : List Char :=
  "if (Math.random() > 0.5) \x7b console.log(\"Fake condition\"); \x7d".toList

/-- Fixed all-zero randomness used to instantiate concrete runs. -/
def oracle0 : Oracle :=
  { decoy := { hex4a := [], hex2 := [], hex8 := [], timerMs := 0, hex4b := [],
               draws := fun _ => 0 },
    shuffle := fun _ => 0 }

/-- One concrete per-call randomness whose every template draw selects the
static conditional template. -/
def decoyR1 : DecoyRandomness :=
  { hex4a := "11aa22bb".toList, hex2 := "33cc".toList,
    hex8 := "44dd55ee66ff7788".toList, timerMs := 17,
    hex4b := "99aa00bb".toList, draws := fun _ => 2 }

/-- A second, different per-call randomness with the same template draws. -/
def decoyR2 : DecoyRandomness :=
  { hex4a := "ffee01ab".toList, hex2 := "cd23".toList,
    hex8 := "45ab67cd89ef0123".toList, timerMs := 901,
    hex4b := "10fe32dc".toList, draws := fun _ => 2 }

/-- Everything the fuelled scanner guarantees about a reported match
`m = (p, q, r)` found at or after offset `i`. -/
structure MatchFacts (s : List Char) (i : Nat) (m : Nat × Nat × Nat) : Prop where
  le_start : i ≤ m.1
  start_le : m.1 ≤ s.length
  caret : caretAt s m.1 = true
  q_eq : m.2.1 = m.1 + wsRunLen (s.drop m.1)
  token : (s.drop m.2.1).take 6 = carToken
  end_some : findEnd s (m.2.1 + 6) = some m.2.2

/-! Basic facts about the building blocks. -/

theorem getD_drop (l : List Char) (n m : Nat) (d : Char) :
    (l.drop n).getD m d = l.getD (n + m) d := by
  simp [List.getD, List.getElem?_drop]

theorem wsRunLen_le (l : List Char) : wsRunLen l ≤ l.length := by
  induction l with
  | nil => simp [wsRunLen]
  | cons c cs ih =>
    simp only [wsRunLen, List.length_cons]
    split <;> omega

theorem take_wsRun_ws (l : List Char) (k : Nat) (hk : k ≤ wsRunLen l) :
    ∀ c ∈ l.take k, isJsWs c = true := by
  induction l generalizing k with
  | nil => simp
  | cons a cs ih =>
    cases k with
    | zero => simp
    | succ k' =>
      simp only [wsRunLen] at hk
      by_cases ha : isJsWs a
      · simp only [ha, if_pos] at hk
        intro c hc
        simp only [List.take_succ_cons, List.mem_cons] at hc
        rcases hc with rfl | hc
        · exact ha
        · exact ih k' (by omega) c hc
      · simp [ha] at hk
/-! Facts about `splitP`, `joinNl` and `jsTrim`. -/

theorem splitP_ne_nil (p : Char → Bool) (l : List Char) : splitP p l ≠ [] := by
  cases l with
  | nil => simp [splitP]
  | cons c cs =>
    simp only [splitP]
    split
    · simp
    · cases h : splitP p cs <;> simp

theorem splitP_append (p : Char → Bool) (c : Char) (hc : p c = true)
    (x y : List Char) : splitP p (x ++ c :: y) = splitP p x ++ splitP p y := by
  induction x with
  | nil => simp [splitP, hc]
  | cons a cs ih =>
    by_cases ha : p a
    · simp only [List.cons_append, splitP, if_pos ha, List.append_eq]
      rw [ih]
    · simp only [List.cons_append, splitP, if_neg ha, List.append_eq]
      cases h : splitP p cs with
      | nil => exact absurd h (splitP_ne_nil p cs)
      | cons l ls =>
        rw [ih, h]
        rfl

theorem splitP_eq_single (p : Char → Bool) (v : List Char)
    (hv : ∀ c ∈ v, p c = false) : splitP p v = [v] := by
  induction v with
  | nil => rfl
  | cons c cs ih =>
    have hc : p c = false := hv c (List.mem_cons_self c cs)
    simp only [splitP, hc, Bool.false_eq_true, if_false]
    rw [ih (fun x hx => hv x (List.mem_cons_of_mem c hx))]

theorem splitP_mem_no (p : Char → Bool) (z : List Char) :
    ∀ L ∈ splitP p z, ∀ c ∈ L, p c = false := by
  induction z with
  | nil =>
    intro L hL
    simp [splitP] at hL
    simp [hL]
  | cons c cs ih =>
    intro L hL
    by_cases hc : p c
    · simp only [splitP, if_pos hc] at hL
      rcases List.mem_cons.mp hL with rfl | hL
      · simp
      · exact ih L hL
    · simp only [splitP, if_neg hc] at hL
      cases h : splitP p cs with
      | nil => exact absurd h (splitP_ne_nil p cs)
      | cons l ls =>
        rw [h] at hL
        rcases List.mem_cons.mp hL with rfl | hL
        · intro x hx
          rcases List.mem_cons.mp hx with rfl | hx
          · simpa using hc
          · exact ih l (by rw [h]; exact List.mem_cons_self l ls) x hx
        · exact ih L (by rw [h]; exact List.mem_cons_of_mem l hL)

theorem splitP_join (p : Char → Bool) (hnl : p '\n' = true)
    (ls : List (List Char)) (h : ls ≠ []) :
    splitP p (joinNl ls) = ls.flatMap (splitP p) := by
  induction ls with
  | nil => exact absurd rfl h
  | cons l ls' ih =>
    cases ls' with
    | nil => simp [joinNl]
    | cons l' ls'' =>
      show splitP p (l ++ '\n' :: joinNl (l' :: ls'')) = _
      rw [splitP_append p '\n' hnl, ih (by simp)]
      rfl

theorem no_nl_of_mem_splitNl (z : List Char) : ∀ L ∈ splitNl z, '\n' ∉ L := by
  intro L hL hmem
  have := splitP_mem_no (fun c => c == '\n') z L hL '\n' hmem
  simp at this

theorem dropWhile_append_of_all {p : Char → Bool} (a t : List Char)
    (h : ∀ c ∈ a, p c = true) : (a ++ t).dropWhile p = t.dropWhile p := by
  induction a with
  | nil => rfl
  | cons c cs ih =>
    have hc : p c = true := h c (List.mem_cons_self c cs)
    simp only [List.cons_append, List.dropWhile_cons, hc, if_pos]
    exact ih (fun x hx => h x (List.mem_cons_of_mem c hx))

theorem jsTrim_ws_token_ws (a b : List Char) (ha : ∀ c ∈ a, isJsWs c = true)
    (hb : ∀ c ∈ b, isJsWs c = true) : jsTrim (a ++ carToken ++ b) = carToken := by
  unfold jsTrim
  rw [List.append_assoc, dropWhile_append_of_all a _ ha]
  have h1 : (carToken ++ b).dropWhile isJsWs = carToken ++ b := by
    show ('C' :: (['a', 'r', '(', ')', ';'] ++ b)).dropWhile isJsWs = _
    rw [List.dropWhile_cons_of_neg (by decide)]
    rfl
  rw [h1, List.reverse_append]
  rw [dropWhile_append_of_all b.reverse _ (by intro c hc; exact hb c (List.mem_reverse.mp hc))]
  have h2 : (carToken.reverse).dropWhile isJsWs = carToken.reverse := by
    rw [show carToken.reverse = ';' :: [')', '(', 'r', 'a', 'C'] from rfl]
    rw [List.dropWhile_cons_of_neg (by decide)]
  rw [h2, List.reverse_reverse]

/-! Structure of a successful regex match. -/

theorem findEndDown_facts (s : List Char) (t k : Nat) (r : Nat)
    (h : findEndDown s t k = some r) :
    t ≤ r ∧ r ≤ t + k ∧ endAnchorAt s r = true := by
  induction k with
  | zero =>
    simp only [findEndDown] at h
    split at h
    · cases h
      refine ⟨le_refl _, by omega, by assumption⟩
    · cases h
  | succ k' ih =>
    simp only [findEndDown] at h
    split at h
    · cases h
      refine ⟨by omega, by omega, by assumption⟩
    · have := ih h
      exact ⟨this.1, by omega, this.2.2⟩

theorem tryMatchAt_facts (s : List Char) (p q r : Nat)
    (h : tryMatchAt s p = some (q, r)) :
    q = p + wsRunLen (s.drop p) ∧ (s.drop q).take 6 = carToken ∧
      findEnd s (q + 6) = some r := by
  unfold tryMatchAt at h
  dsimp only at h
  split at h
  · cases he : findEnd s (p + wsRunLen (s.drop p) + 6) with
    | none => rw [he] at h; cases h
    | some r' =>
      rw [he] at h
      simp only [Option.map_some', Option.some.injEq, Prod.mk.injEq] at h
      obtain ⟨hq, hr⟩ := h
      subst hq
      subst hr
      exact ⟨rfl, by assumption, he⟩
  · cases h

theorem MatchFacts.weaken {s : List Char} {p : Nat} {m : Nat × Nat × Nat}
    (h : MatchFacts s (p + 1) m) : MatchFacts s p m :=
  ⟨by have := h.le_start; omega, h.start_le, h.caret, h.q_eq, h.token, h.end_some⟩

theorem findMatchFromAux_facts (s : List Char) (fuel p : Nat) (m : Nat × Nat × Nat)
    (h : findMatchFromAux s fuel p = some m) : MatchFacts s p m := by
  induction fuel generalizing p with
  | zero => cases h
  | succ fuel' ih =>
    simp only [findMatchFromAux] at h
    split at h
    · cases h
    · split at h
      · cases ht : tryMatchAt s p with
        | none => rw [ht] at h; exact (ih (p + 1) h).weaken
        | some qr =>
          rw [ht] at h
          cases h
          obtain ⟨h1, h2, h3⟩ := tryMatchAt_facts s p qr.1 qr.2 ht
          exact ⟨le_refl _, by omega, by assumption, h1, h2, h3⟩
      · exact (ih (p + 1) h).weaken

theorem findMatchFrom_facts (s : List Char) (i : Nat) (m : Nat × Nat × Nat)
    (h : findMatchFrom s i = some m) : MatchFacts s i m :=
  findMatchFromAux_facts s _ i m h

theorem MatchFacts.p_le_q {s : List Char} {i : Nat} {m : Nat × Nat × Nat}
    (h : MatchFacts s i m) : m.1 ≤ m.2.1 := by
  have := h.q_eq
  omega

theorem MatchFacts.q6_le_len {s : List Char} {i : Nat} {m : Nat × Nat × Nat}
    (h : MatchFacts s i m) : m.2.1 + 6 ≤ s.length := by
  have hlen : ((s.drop m.2.1).take 6).length = 6 := by rw [h.token]; rfl
  rw [List.length_take, List.length_drop] at hlen
  omega

theorem MatchFacts.r_facts {s : List Char} {i : Nat} {m : Nat × Nat × Nat}
    (h : MatchFacts s i m) :
    m.2.1 + 6 ≤ m.2.2 ∧ m.2.2 ≤ s.length ∧ endAnchorAt s m.2.2 = true ∧
      m.2.2 ≤ m.2.1 + 6 + wsRunLen (s.drop (m.2.1 + 6)) := by
  have he := h.end_some
  unfold findEnd at he
  obtain ⟨h1, h2, h3⟩ := findEndDown_facts s _ _ _ he
  have h4 : wsRunLen (s.drop (m.2.1 + 6)) ≤ s.length - (m.2.1 + 6) := by
    have := wsRunLen_le (s.drop (m.2.1 + 6))
    rwa [List.length_drop] at this
  have h5 := h.q6_le_len
  exact ⟨h1, by omega, h3, h2⟩

theorem drop_drop_eq (s : List Char) (a b : Nat) (hab : a ≤ b) :
    (s.drop a).drop (b - a) = s.drop b := by
  rw [List.drop_drop]
  congr 1
  omega

theorem drop_eq_seg_append (s : List Char) (a b : Nat) (hab : a ≤ b) :
    s.drop a = (s.drop a).take (b - a) ++ s.drop b := by
  conv_lhs => rw [← List.take_append_drop (b - a) (s.drop a)]
  rw [drop_drop_eq s a b hab]

theorem MatchFacts.drop_q {s : List Char} {i : Nat} {m : Nat × Nat × Nat}
    (h : MatchFacts s i m) : s.drop m.2.1 = carToken ++ s.drop (m.2.1 + 6) := by
  conv_lhs => rw [← List.take_append_drop 6 (s.drop m.2.1)]
  rw [h.token, List.drop_drop]

theorem MatchFacts.indent_ws {s : List Char} {i : Nat} {m : Nat × Nat × Nat}
    (h : MatchFacts s i m) : ∀ c ∈ indentOf s m, isJsWs c = true := by
  have hle : m.2.1 - m.1 ≤ wsRunLen (s.drop m.1) := by
    have := h.q_eq
    omega
  exact take_wsRun_ws _ _ hle

theorem MatchFacts.trail_ws {s : List Char} {i : Nat} {m : Nat × Nat × Nat}
    (h : MatchFacts s i m) : ∀ c ∈ trailOf s m, isJsWs c = true := by
  have hr := h.r_facts
  have hle : m.2.2 - (m.2.1 + 6) ≤ wsRunLen (s.drop (m.2.1 + 6)) := by omega
  exact take_wsRun_ws _ _ hle

theorem MatchFacts.indent_len {s : List Char} {i : Nat} {m : Nat × Nat × Nat}
    (h : MatchFacts s i m) : (indentOf s m).length = m.2.1 - m.1 := by
  unfold indentOf
  rw [List.length_take, List.length_drop]
  have h1 := h.q6_le_len
  have h2 := h.p_le_q
  omega

theorem MatchFacts.trail_len {s : List Char} {i : Nat} {m : Nat × Nat × Nat}
    (h : MatchFacts s i m) : (trailOf s m).length = m.2.2 - (m.2.1 + 6) := by
  unfold trailOf
  rw [List.length_take, List.length_drop]
  have := h.r_facts
  omega

theorem MatchFacts.drop_p {s : List Char} {i : Nat} {m : Nat × Nat × Nat}
    (h : MatchFacts s i m) :
    s.drop m.1 = indentOf s m ++ carToken ++ trailOf s m ++ s.drop m.2.2 := by
  have h1 : s.drop m.1 = indentOf s m ++ s.drop m.2.1 :=
    drop_eq_seg_append s m.1 m.2.1 h.p_le_q
  have h2 : s.drop (m.2.1 + 6) = trailOf s m ++ s.drop m.2.2 :=
    drop_eq_seg_append s (m.2.1 + 6) m.2.2 h.r_facts.1
  rw [h1, h.drop_q, h2]
  simp [List.append_assoc]

theorem MatchFacts.matched_decomp {s : List Char} {i : Nat} {m : Nat × Nat × Nat}
    (h : MatchFacts s i m) :
    matchedOf s m = indentOf s m ++ carToken ++ trailOf s m := by
  unfold matchedOf
  rw [h.drop_p]
  have hlen : (indentOf s m ++ carToken ++ trailOf s m).length = m.2.2 - m.1 := by
    simp only [List.length_append, h.indent_len, h.trail_len]
    have h1 := h.p_le_q
    have h2 := h.r_facts.1
    show m.2.1 - m.1 + 6 + (m.2.2 - (m.2.1 + 6)) = m.2.2 - m.1
    omega
  calc ((indentOf s m ++ carToken ++ trailOf s m) ++ s.drop m.2.2).take (m.2.2 - m.1)
      = ((indentOf s m ++ carToken ++ trailOf s m) ++ s.drop m.2.2).take
          (indentOf s m ++ carToken ++ trailOf s m).length := by rw [hlen]
    _ = indentOf s m ++ carToken ++ trailOf s m := List.take_left _ _

theorem MatchFacts.token_infix_matched {s : List Char} {i : Nat} {m : Nat × Nat × Nat}
    (h : MatchFacts s i m) : carToken <:+: matchedOf s m := by
  rw [h.matched_decomp]
  exact ⟨indentOf s m, trailOf s m, by simp⟩

/-! Bridge between the fuelled replace loop and its list-level rendering. -/

theorem applyChunk_snd (plan : List (List Char)) (k : Nat) (indent matched : List Char) :
    (applyChunk plan k indent matched).2 = stepCursor plan k := by
  unfold applyChunk stepCursor
  by_cases h1 : k < plan.length
  · by_cases h2 : plan.getD k [] = []
    · rw [List.getD_eq_getElem plan [] h1] at h2
      simp [h1, h2]
    · rw [List.getD_eq_getElem plan [] h1] at h2
      simp [h1, h2]
  · simp [h1]

theorem replaceLoop_eq_render (s : List Char) (plan : List (List Char))
    (fuel i k : Nat) :
    replaceLoopAux s plan fuel i k =
      (assemble s i (allMatchesAux s fuel i) (chunksFrom s plan k (allMatchesAux s fuel i)),
        cursorFold plan k (allMatchesAux s fuel i)) := by
  induction fuel generalizing i k with
  | zero => simp [replaceLoopAux, allMatchesAux, assemble, cursorFold]
  | succ fuel' ih =>
    simp only [replaceLoopAux, allMatchesAux]
    cases h : findMatchFrom s i with
    | none => simp [assemble, cursorFold]
    | some m =>
      simp only [assemble, chunksFrom, cursorFold]
      rw [ih m.2.2 (applyChunk plan k (indentOf s m) (matchedOf s m)).2]
      rw [applyChunk_snd]

theorem jsReplaceAll_eq_render (s : List Char) (plan : List (List Char)) :
    jsReplaceAll s plan =
      (assemble s 0 (allMatches s) (chunksFrom s plan 0 (allMatches s)),
        cursorFold plan 0 (allMatches s)) :=
  replaceLoop_eq_render s plan (s.length + 1) 0 0

theorem stepCursor_of_nonempty (plan : List (List Char)) (hne : ∀ f ∈ plan, f ≠ [])
    (k : Nat) : stepCursor plan k = if k < plan.length then k + 1 else k := by
  unfold stepCursor
  by_cases h1 : k < plan.length
  · have h2 : plan[k] ≠ [] := hne _ (List.getElem_mem h1)
    simp [h1, h2]
  · simp [h1]

theorem cursorFold_nonempty (plan : List (List Char)) (hne : ∀ f ∈ plan, f ≠ [])
    (ms : List (Nat × Nat × Nat)) (k : Nat) (hk : k ≤ plan.length) :
    cursorFold plan k ms = min (k + ms.length) plan.length := by
  induction ms generalizing k with
  | nil => simp [cursorFold]; omega
  | cons m ms' ih =>
    simp only [cursorFold, stepCursor_of_nonempty plan hne]
    by_cases h1 : k < plan.length
    · rw [if_pos h1, ih (k + 1) (by omega)]
      simp only [List.length_cons]
      omega
    · rw [if_neg h1, ih k hk]
      simp only [List.length_cons]
      omega

theorem chunksFrom_length (s : List Char) (plan : List (List Char))
    (ms : List (Nat × Nat × Nat)) (k : Nat) :
    (chunksFrom s plan k ms).length = ms.length := by
  induction ms generalizing k with
  | nil => rfl
  | cons m ms' ih => simp [chunksFrom, ih]

theorem chunksFrom_getD_nonempty (s : List Char) (plan : List (List Char))
    (hne : ∀ f ∈ plan, f ≠ []) (ms : List (Nat × Nat × Nat)) (k t : Nat)
    (ht : t < ms.length) :
    (chunksFrom s plan k ms).getD t [] =
      if k + t < plan.length then
        indentPatch (indentOf s (ms.getD t (0, 0, 0))) (plan.getD (k + t) [])
      else matchedOf s (ms.getD t (0, 0, 0)) := by
  induction ms generalizing k t with
  | nil => simp at ht
  | cons m ms' ih =>
    cases t with
    | zero =>
      simp only [chunksFrom, List.getD_cons_zero, Nat.add_zero]
      unfold applyChunk
      by_cases h1 : k < plan.length
      · have h2 : plan[k] ≠ [] := hne _ (List.getElem_mem h1)
        simp [h1, h2]
      · simp [h1]
    | succ t' =>
      simp only [chunksFrom, List.getD_cons_succ]
      rw [applyChunk_snd, ih (stepCursor plan k) t' (by simpa using ht)]
      rw [stepCursor_of_nonempty plan hne]
      by_cases h1 : k < plan.length
      · rw [if_pos h1]
        have : k + 1 + t' = k + (t' + 1) := by omega
        rw [this]
      · rw [if_neg h1]
        have hc1 : ¬ k + t' < plan.length := by omega
        have hc2 : ¬ k + (t' + 1) < plan.length := by omega
        rw [if_neg hc1, if_neg hc2]

theorem cursorFold_stall (plan : List (List Char)) (j : Nat)
    (hlt : ∀ t, t < j → plan.getD t [] ≠ []) (hj : plan.getD j [] = [])
    (hjlen : j ≤ plan.length) (ms : List (Nat × Nat × Nat)) (k : Nat) (hk : k ≤ j) :
    cursorFold plan k ms = min (k + ms.length) j := by
  induction ms generalizing k with
  | nil => simp [cursorFold]; omega
  | cons m ms' ih =>
    simp only [cursorFold]
    by_cases h1 : k < j
    · have hstep : stepCursor plan k = k + 1 := by
        unfold stepCursor
        have hklen : k < plan.length := by omega
        have h2 := hlt k h1
        rw [List.getD_eq_getElem plan [] hklen] at h2
        simp [hklen, h2]
      rw [hstep, ih (k + 1) (by omega)]
      simp only [List.length_cons]
      omega
    · have hkj : k = j := by omega
      subst hkj
      have hstep : stepCursor plan k = k := by
        unfold stepCursor
        by_cases h2 : k < plan.length
        · have hj' := hj
          rw [List.getD_eq_getElem plan [] h2] at hj'
          simp [h2, hj']
        · simp [h2]
      rw [hstep, ih k hk]
      simp only [List.length_cons]
      omega

theorem chunksFrom_getD_stall (s : List Char) (plan : List (List Char)) (j : Nat)
    (hlt : ∀ t, t < j → plan.getD t [] ≠ []) (hj : plan.getD j [] = [])
    (hjlen : j ≤ plan.length) (ms : List (Nat × Nat × Nat)) (k t : Nat)
    (ht : t < ms.length) (hk : k ≤ j) :
    (chunksFrom s plan k ms).getD t [] =
      if k + t < j then
        indentPatch (indentOf s (ms.getD t (0, 0, 0))) (plan.getD (k + t) [])
      else matchedOf s (ms.getD t (0, 0, 0)) := by
  induction ms generalizing k t with
  | nil => simp at ht
  | cons m ms' ih =>
    cases t with
    | zero =>
      simp only [chunksFrom, List.getD_cons_zero, Nat.add_zero]
      unfold applyChunk
      by_cases h1 : k < j
      · have hklen : k < plan.length := by omega
        have h2 := hlt k h1
        rw [List.getD_eq_getElem plan [] hklen] at h2
        simp [hklen, h2, h1]
      · have hkj : k = j := by omega
        subst hkj
        by_cases h2 : k < plan.length
        · have hj' := hj
          rw [List.getD_eq_getElem plan [] h2] at hj'
          simp [h2, hj', h1]
        · simp [h2, h1]
    | succ t' =>
      simp only [chunksFrom, List.getD_cons_succ]
      rw [applyChunk_snd]
      by_cases h1 : k < j
      · have hstep : stepCursor plan k = k + 1 := by
          unfold stepCursor
          have hklen : k < plan.length := by omega
          have h2 := hlt k h1
          rw [List.getD_eq_getElem plan [] hklen] at h2
          simp [hklen, h2]
        rw [hstep, ih (k + 1) t' (by simpa using ht) (by omega)]
        have : k + 1 + t' = k + (t' + 1) := by omega
        rw [this]
      · have hkj : k = j := by omega
        subst hkj
        have hstep : stepCursor plan k = k := by
          unfold stepCursor
          by_cases h2 : k < plan.length
          · have hj' := hj
            rw [List.getD_eq_getElem plan [] h2] at hj'
            simp [h2, hj']
          · simp [h2]
        rw [hstep, ih k t' (by simpa using ht) hk]
        have hc1 : ¬ k + t' < k := by omega
        have hc2 : ¬ k + (t' + 1) < k := by omega
        rw [if_neg hc1, if_neg hc2]

theorem getD_infix_assemble (s : List Char) (ms : List (Nat × Nat × Nat))
    (cs : List (List Char)) (i t : Nat) (ht : t < ms.length)
    (hlen : cs.length = ms.length) :
    cs.getD t [] <:+: assemble s i ms cs := by
  induction ms generalizing cs i t with
  | nil => simp at ht
  | cons m ms' ih =>
    cases cs with
    | nil => simp at hlen
    | cons c cs' =>
      cases t with
      | zero =>
        exact ⟨(s.drop i).take (m.1 - i), assemble s m.2.2 ms' cs', by simp [assemble]⟩
      | succ t' =>
        have hin : cs'.getD t' [] <:+: assemble s m.2.2 ms' cs' :=
          ih cs' m.2.2 t' (by simpa using ht) (by simpa using hlen)
        obtain ⟨u, v, huv⟩ := hin
        exact ⟨(s.drop i).take (m.1 - i) ++ c ++ u, v, by simp [assemble, ← huv]⟩

/-! Matches are visited in strictly ascending line order. -/

theorem take_succ_getD (l : List Char) (n : Nat) (d : Char) (hn : n < l.length) :
    l.take (n + 1) = l.take n ++ [l.getD n d] := by
  rw [List.take_succ]
  congr 1
  simp [List.getElem?_eq_getElem hn, List.getD_eq_getElem l d hn]

theorem endAnchor_cases (s : List Char) (r : Nat) (h : endAnchorAt s r = true) :
    r = s.length ∨ (r < s.length ∧ isLineTerm (s.getD r '\x00') = true) := by
  unfold endAnchorAt at h
  simp only [Bool.or_eq_true, beq_iff_eq] at h
  rcases h with h | h
  · exact Or.inl h
  · by_cases hr : r < s.length
    · exact Or.inr ⟨hr, h⟩
    · rw [List.getD_eq_default s '\x00' (by omega)] at h
      exact absurd h (by decide)

theorem caret_cases (s : List Char) (p : Nat) (h : caretAt s p = true) :
    p = 0 ∨ (p - 1 < s.length ∧ isLineTerm (s.getD (p - 1) '\x00') = true) := by
  unfold caretAt at h
  simp only [Bool.or_eq_true, beq_iff_eq] at h
  rcases h with h | h
  · exact Or.inl h
  · by_cases hr : p - 1 < s.length
    · exact Or.inr ⟨hr, h⟩
    · rw [List.getD_eq_default s '\x00' (by omega)] at h
      exact absurd h (by decide)

theorem lineNumAt_mono (s : List Char) (a b : Nat) (hab : a ≤ b) :
    lineNumAt s a ≤ lineNumAt s b := by
  unfold lineNumAt
  have hb : s.take b = s.take a ++ (s.drop a).take (b - a) := by
    rw [← List.take_add]
    congr 1
    omega
  rw [hb, List.countP_append]
  omega

theorem lineNumAt_succ_of_lt (s : List Char) (r : Nat) (hr : r < s.length)
    (hnl : isLineTerm (s.getD r '\x00') = true) :
    lineNumAt s (r + 1) = lineNumAt s r + 1 := by
  unfold lineNumAt
  rw [take_succ_getD s r '\x00' hr, List.countP_append]
  have h2 := hnl
  rw [List.getD_eq_getElem?_getD] at h2
  simp [h2]

theorem allMatchesAux_head (s : List Char) (fuel j : Nat) (m : Nat × Nat × Nat)
    (h : (allMatchesAux s fuel j).head? = some m) : findMatchFrom s j = some m := by
  cases fuel with
  | zero => simp [allMatchesAux] at h
  | succ fuel' =>
    simp only [allMatchesAux] at h
    cases hf : findMatchFrom s j with
    | none => rw [hf] at h; simp at h
    | some m' =>
      rw [hf] at h
      simp only [List.head?_cons, Option.some.injEq] at h
      rw [h]

theorem MatchFacts.getD_q {s : List Char} {i : Nat} {m : Nat × Nat × Nat}
    (h : MatchFacts s i m) : s.getD m.2.1 '\x00' = 'C' := by
  have h0 : (s.drop m.2.1).getD 0 '\x00' = 'C' := by
    rw [h.drop_q]
    rfl
  rwa [getD_drop, Nat.add_zero] at h0

theorem line_lt_of_consecutive (s : List Char) (i : Nat) (m m' : Nat × Nat × Nat)
    (h1 : MatchFacts s i m) (h2 : MatchFacts s m.2.2 m') :
    lineNumAt s m.2.1 < lineNumAt s m'.2.1 := by
  have hr := h1.r_facts
  have hrlen : m.2.2 < s.length ∧ isLineTerm (s.getD m.2.2 '\x00') = true := by
    rcases endAnchor_cases s m.2.2 hr.2.2.1 with he | he
    · exfalso
      have hp' : s.length ≤ m'.1 := he ▸ h2.le_start
      have hq' : s.length ≤ m'.2.1 := by
        have := h2.q_eq
        omega
      have hdrop : s.drop m'.2.1 = [] := List.drop_eq_nil_of_le hq'
      have := h2.token
      rw [hdrop] at this
      exact absurd this (by decide)
    · exact he
  have hq'C : s.getD m'.2.1 '\x00' = 'C' := h2.getD_q
  have hne : m.2.2 ≠ m'.2.1 := by
    intro he
    rw [he, hq'C] at hrlen
    exact absurd hrlen.2 (by decide)
  have hlt : m.2.2 + 1 ≤ m'.2.1 := by
    have hle : m.2.2 ≤ m'.1 := h2.le_start
    have := h2.q_eq
    omega
  calc lineNumAt s m.2.1 ≤ lineNumAt s m.2.2 := lineNumAt_mono s _ _ (by omega)
    _ < lineNumAt s (m.2.2 + 1) := by
        rw [lineNumAt_succ_of_lt s m.2.2 hrlen.1 hrlen.2]
        omega
    _ ≤ lineNumAt s m'.2.1 := lineNumAt_mono s _ _ hlt

theorem allMatchesAux_chain (s : List Char) (fuel i : Nat) :
    List.Chain' (fun m m' : Nat × Nat × Nat => lineNumAt s m.2.1 < lineNumAt s m'.2.1)
      (allMatchesAux s fuel i) := by
  induction fuel generalizing i with
  | zero => simp [allMatchesAux]
  | succ fuel' ih =>
    simp only [allMatchesAux]
    cases h : findMatchFrom s i with
    | none => simp
    | some m =>
      refine List.chain'_cons'.mpr ⟨?_, ih m.2.2⟩
      intro m' hm'
      have h2 := allMatchesAux_head s fuel' m.2.2 m' hm'
      exact line_lt_of_consecutive s i m m' (findMatchFrom_facts _ _ _ h)
        (findMatchFrom_facts _ _ _ h2)

theorem allMatches_chain (s : List Char) :
    List.Chain' (fun m m' : Nat × Nat × Nat => lineNumAt s m.2.1 < lineNumAt s m'.2.1)
      (allMatches s) :=
  allMatchesAux_chain s _ 0

/-! Every match sits on a line whose trimmed content is exactly the token. -/

theorem lastLineOf_decomp (l : List Char) :
    l = (l.reverse.dropWhile (fun c => !isLineTerm c)).reverse ++ lastLineOf l := by
  unfold lastLineOf
  rw [← List.reverse_append, List.takeWhile_append_dropWhile, List.reverse_reverse]

theorem lastLineOf_no_lt (l : List Char) : ∀ c ∈ lastLineOf l, isLineTerm c = false := by
  intro c hc
  unfold lastLineOf at hc
  rw [List.mem_reverse] at hc
  have := List.mem_takeWhile_imp hc
  simpa using this

theorem lastLineOf_subset (l : List Char) : ∀ c ∈ lastLineOf l, c ∈ l := by
  intro c hc
  unfold lastLineOf at hc
  rw [List.mem_reverse] at hc
  have := (List.takeWhile_sublist _).subset hc
  rwa [List.mem_reverse] at this

theorem dropWhile_head_false {p : Char → Bool} {l : List Char} {c : Char}
    {cs : List Char} (h : l.dropWhile p = c :: cs) : p c = false := by
  induction l with
  | nil => simp [List.dropWhile] at h
  | cons a as ih =>
    by_cases hp : p a
    · rw [List.dropWhile_cons_of_pos hp] at h
      exact ih h
    · rw [List.dropWhile_cons_of_neg hp] at h
      injection h with h1 _
      subst h1
      simpa using hp

theorem takeWhile_append_of_all {p : Char → Bool} (a t : List Char)
    (h : ∀ c ∈ a, p c = true) : (a ++ t).takeWhile p = a ++ t.takeWhile p := by
  induction a with
  | nil => rfl
  | cons c cs ih =>
    have hc := h c (List.mem_cons_self c cs)
    simp only [List.cons_append, List.takeWhile_cons, hc, if_pos]
    rw [ih (fun x hx => h x (List.mem_cons_of_mem c hx))]

theorem mem_splitP_left (p : Char → Bool) (v w : List Char)
    (hv : ∀ c ∈ v, p c = false)
    (hw : w = [] ∨ ∃ c w0, p c = true ∧ w = c :: w0) : v ∈ splitP p (v ++ w) := by
  rcases hw with rfl | ⟨c, w0, hc, rfl⟩
  · rw [List.append_nil, splitP_eq_single p v hv]
    exact List.mem_singleton.mpr rfl
  · rw [splitP_append p c hc, splitP_eq_single p v hv]
    exact List.mem_append_left _ (List.mem_singleton.mpr rfl)

theorem mem_splitP_mid (p : Char → Bool) (u v w : List Char)
    (hu : u = [] ∨ ∃ u0 c, p c = true ∧ u = u0 ++ [c])
    (hv : ∀ c ∈ v, p c = false)
    (hw : w = [] ∨ ∃ c w0, p c = true ∧ w = c :: w0) :
    v ∈ splitP p (u ++ v ++ w) := by
  rcases hu with rfl | ⟨u0, c, hc, rfl⟩
  · rw [List.nil_append]
    exact mem_splitP_left p v w hv hw
  · have he : (u0 ++ [c]) ++ v ++ w = u0 ++ c :: (v ++ w) := by simp
    rw [he, splitP_append p c hc]
    exact List.mem_append_right _ (mem_splitP_left p v w hv hw)

theorem carToken_no_lt : ∀ c ∈ carToken, isLineTerm c = false := by decide

theorem MatchFacts.marker_line {s : List Char} {i : Nat} {m : Nat × Nat × Nat}
    (h : MatchFacts s i m) :
    ∃ line ∈ splitLines s, jsTrim line = carToken ∧
      line.takeWhile isJsWs = lastLineOf (indentOf s m) := by
  refine ⟨lastLineOf (indentOf s m) ++ carToken ++
    (trailOf s m).takeWhile (fun c => !isLineTerm c), ?_, ?_, ?_⟩
  · -- membership: decompose s around the match
    have hs : s = (s.take m.1 ++
          ((indentOf s m).reverse.dropWhile (fun c => !isLineTerm c)).reverse)
        ++ (lastLineOf (indentOf s m) ++ carToken ++
            (trailOf s m).takeWhile (fun c => !isLineTerm c))
        ++ ((trailOf s m).dropWhile (fun c => !isLineTerm c) ++ s.drop m.2.2) := by
      conv_lhs =>
        rw [← List.take_append_drop m.1 s, h.drop_p,
          lastLineOf_decomp (indentOf s m),
          ← List.takeWhile_append_dropWhile (fun c => !isLineTerm c) (trailOf s m)]
      simp only [List.append_assoc]
    have hmem := mem_splitP_mid isLineTerm
      (s.take m.1 ++ ((indentOf s m).reverse.dropWhile (fun c => !isLineTerm c)).reverse)
      (lastLineOf (indentOf s m) ++ carToken ++
        (trailOf s m).takeWhile (fun c => !isLineTerm c))
      ((trailOf s m).dropWhile (fun c => !isLineTerm c) ++ s.drop m.2.2)
      ?_ ?_ ?_
    · rw [← hs] at hmem
      exact hmem
    · -- the part before the marker line is empty or ends with a line terminator
      cases hd : (indentOf s m).reverse.dropWhile (fun c => !isLineTerm c) with
      | nil =>
        simp only [hd, List.reverse_nil, List.append_nil]
        by_cases hp0 : m.1 = 0
        · left
          rw [hp0, List.take_zero]
        · right
          rcases caret_cases s m.1 h.caret with hp | ⟨hp1, hp2⟩
          · exact absurd hp hp0
          · refine ⟨s.take (m.1 - 1), s.getD (m.1 - 1) '\x00', hp2, ?_⟩
            have hm1 : m.1 = (m.1 - 1) + 1 := by omega
            conv_lhs => rw [hm1]
            rw [take_succ_getD s (m.1 - 1) '\x00' hp1]
      | cons c cs =>
        right
        have hclt : isLineTerm c = true := by
          have hc := dropWhile_head_false hd
          simpa using hc
        exact ⟨s.take m.1 ++ cs.reverse, c, hclt, by simp⟩
    · -- the marker line itself contains no line terminator
      intro c hc
      rcases List.mem_append.mp hc with hc | hc
      · rcases List.mem_append.mp hc with hc | hc
        · exact lastLineOf_no_lt _ c hc
        · exact carToken_no_lt c hc
      · have := List.mem_takeWhile_imp hc
        simpa using this
    · -- the part after the marker line is empty or starts with a line terminator
      cases hd : (trailOf s m).dropWhile (fun c => !isLineTerm c) with
      | nil =>
        simp only [hd, List.nil_append]
        rcases endAnchor_cases s m.2.2 h.r_facts.2.2.1 with he | ⟨he1, he2⟩
        · left
          rw [he, List.drop_length]
        · right
          refine ⟨s.getD m.2.2 '\x00', s.drop (m.2.2 + 1), he2, ?_⟩
          rw [List.drop_eq_getElem_cons he1]
          congr 1
          simp [List.getD, List.getElem?_eq_getElem he1]
      | cons c cs =>
        right
        have hclt : isLineTerm c = true := by
          have hc := dropWhile_head_false hd
          simpa using hc
        exact ⟨c, cs ++ s.drop m.2.2, hclt, by simp⟩
  · -- the line trims to exactly the token
    apply jsTrim_ws_token_ws
    · intro c hc
      exact h.indent_ws c (lastLineOf_subset _ c hc)
    · intro c hc
      exact h.trail_ws c ((List.takeWhile_sublist _).subset hc)
  · -- the leading whitespace of the line is the tail of the captured indent
    rw [List.append_assoc, takeWhile_append_of_all _ _
      (fun c hc => h.indent_ws c (lastLineOf_subset _ c hc))]
    have hck : (carToken ++ (trailOf s m).takeWhile
        (fun c => !isLineTerm c)).takeWhile isJsWs = [] := by
      show (('C' :: _) : List Char).takeWhile isJsWs = []
      rw [List.takeWhile_cons_of_neg (by decide)]
    rw [hck, List.append_nil]

/-! From the absence of line-exact marker lines to the absence of matches. -/

theorem markerCount_zero_of_no_marker_line (content : List Char)
    (h : ∀ line ∈ splitLines content, jsTrim line ≠ carToken) :
    markerCount content = 0 := by
  by_contra hne
  unfold markerCount at hne
  have hnil : allMatches content ≠ [] := by
    intro hh
    rw [hh] at hne
    simp at hne
  obtain ⟨m, hm⟩ : ∃ m, (allMatches content).head? = some m := by
    cases hh : allMatches content with
    | nil => exact absurd hh hnil
    | cons a l => exact ⟨a, rfl⟩
  have hf : findMatchFrom content 0 = some m := allMatchesAux_head content _ 0 m hm
  obtain ⟨line, hline, htrim, _⟩ := (findMatchFrom_facts content 0 m hf).marker_line
  exact h line hline htrim

/-! Fragment lines inside a replacement chunk. -/

theorem mem_splitLines_indent_append (indent L : List Char)
    (hLnl : ∀ c ∈ L, isLineTerm c = false) :
    lastLineOf indent ++ L ∈ splitLines (indent ++ L) := by
  cases hd : indent.reverse.dropWhile (fun c => !isLineTerm c) with
  | nil =>
    have hin : indent = lastLineOf indent := by
      conv_lhs => rw [lastLineOf_decomp indent]
      rw [hd]
      simp
    have h1 : ∀ c ∈ indent ++ L, isLineTerm c = false := by
      intro c hx
      rcases List.mem_append.mp hx with hx | hx
      · rw [hin] at hx
        exact lastLineOf_no_lt indent c hx
      · exact hLnl c hx
    rw [show splitLines (indent ++ L) = [indent ++ L] from
      splitP_eq_single isLineTerm _ h1, List.mem_singleton, ← hin]
  | cons c cs =>
    have hclt : isLineTerm c = true := by
      have := dropWhile_head_false hd
      simpa using this
    have hdec : indent ++ L = cs.reverse ++ c :: (lastLineOf indent ++ L) := by
      conv_lhs => rw [lastLineOf_decomp indent, hd]
      simp
    rw [hdec]
    rw [show splitLines (cs.reverse ++ c :: (lastLineOf indent ++ L)) =
      splitLines cs.reverse ++ splitLines (lastLineOf indent ++ L) from
      splitP_append isLineTerm c hclt _ _]
    refine List.mem_append_right _ ?_
    have h1 : ∀ x ∈ lastLineOf indent ++ L, isLineTerm x = false := by
      intro x hx
      rcases List.mem_append.mp hx with hx | hx
      · exact lastLineOf_no_lt indent x hx
      · exact hLnl x hx
    rw [show splitLines (lastLineOf indent ++ L) = [lastLineOf indent ++ L] from
      splitP_eq_single isLineTerm _ h1, List.mem_singleton]

theorem indentPatch_lines (indent f L : List Char) (hL : L ∈ splitNl f)
    (hLnl : ∀ c ∈ L, isLineTerm c = false) :
    (L.any (fun c => !isJsWs c) = true →
      lastLineOf indent ++ L ∈ splitLines (indentPatch indent f)) ∧
    (L.any (fun c => !isJsWs c) = false → L ∈ splitLines (indentPatch indent f)) := by
  have hmap_ne : (splitNl f).map (indentLine indent) ≠ [] := by
    intro hh
    exact splitP_ne_nil _ f (List.map_eq_nil_iff.mp hh)
  have hsplit : splitLines (indentPatch indent f) =
      ((splitNl f).map (indentLine indent)).flatMap splitLines :=
    splitP_join isLineTerm (by decide) _ hmap_ne
  have hmem : indentLine indent L ∈ (splitNl f).map (indentLine indent) :=
    List.mem_map_of_mem _ hL
  constructor
  · intro hb
    rw [hsplit]
    apply List.mem_flatMap.mpr
    refine ⟨indentLine indent L, hmem, ?_⟩
    unfold indentLine
    rw [if_pos hb]
    exact mem_splitLines_indent_append indent L hLnl
  · intro hb
    rw [hsplit]
    apply List.mem_flatMap.mpr
    refine ⟨indentLine indent L, hmem, ?_⟩
    unfold indentLine
    rw [if_neg (by simp [hb])]
    rw [show splitLines L = [L] from splitP_eq_single isLineTerm L hLnl,
      List.mem_singleton]

/-! Decoy generation. -/

theorem fakePatchTemplates_length (r : DecoyRandomness) :
    (fakePatchTemplates r).length = 5 := rfl

theorem append_ne_nil_left {a : List Char} (ha : a ≠ []) (b : List Char) :
    a ++ b ≠ [] := by
  intro h
  exact ha (List.append_eq_nil.mp h).1

theorem fakePatchTemplates_ne_nil (r : DecoyRandomness) :
    ∀ p ∈ fakePatchTemplates r, p ≠ [] := by
  intro p hp
  unfold fakePatchTemplates at hp
  simp only [List.mem_cons, List.not_mem_nil, or_false] at hp
  rcases hp with rfl | rfl | rfl | rfl | rfl
  · exact append_ne_nil_left (append_ne_nil_left (by decide) _) _
  · exact append_ne_nil_left (append_ne_nil_left
      (append_ne_nil_left (append_ne_nil_left (by decide) _) _) _) _
  · decide
  · exact append_ne_nil_left (append_ne_nil_left (by decide) _) _
  · exact append_ne_nil_left (append_ne_nil_left (by decide) _) _

theorem generateFakePatches_length (count : Nat) (r : DecoyRandomness) :
    (generateFakePatches count r).length = count := by
  unfold generateFakePatches
  suffices h : ∀ n i, (genFakeAux (fakePatchTemplates r) r.draws i n).length = n from
    h count 0
  intro n
  induction n with
  | zero => intro i; rfl
  | succ n' ih =>
    intro i
    simp only [genFakeAux]
    have hlt : r.draws i % 5 < (fakePatchTemplates r).length := by
      rw [fakePatchTemplates_length]
      exact Nat.mod_lt _ (by omega)
    cases hx : (fakePatchTemplates r).getD (r.draws i % 5) [] with
    | nil =>
      exfalso
      rw [List.getD_eq_getElem _ [] hlt] at hx
      exact fakePatchTemplates_ne_nil r _ (List.getElem_mem hlt) hx
    | cons c cs =>
      simp only [List.length_append, List.length_cons, List.length_nil, ih (i + 1)]
      omega

theorem fakePatchTemplates_getD_two (r : DecoyRandomness) :
    (fakePatchTemplates r).getD 2 [] = staticDecoy := rfl

theorem generateFakePatches_all_static (r : DecoyRandomness)
    (hdraws : ∀ i, r.draws i = 2) (n : Nat) :
    generateFakePatches n r = List.replicate n staticDecoy := by
  unfold generateFakePatches
  suffices h : ∀ k i, genFakeAux (fakePatchTemplates r) r.draws i k =
      List.replicate k staticDecoy from h n 0
  intro k
  induction k with
  | zero => intro i; rfl
  | succ k' ih =>
    intro i
    simp only [genFakeAux, hdraws i]
    rw [show (2 : Nat) % 5 = 2 from rfl, fakePatchTemplates_getD_two]
    rw [show (match staticDecoy with
      | [] => ([] : List (List Char))
      | p => [p]) = [staticDecoy] from rfl]
    rw [ih (i + 1)]
    rfl

/-! Fisher-Yates shuffling yields a permutation. -/

theorem cons_set_perm {α : Type} (xs : List α) (j : Nat) (a b : α)
    (hj : xs.get? j = some b) : (b :: xs.set j a).Perm (a :: xs) := by
  obtain ⟨hjlen, hget⟩ := List.get?_eq_some.mp hj
  have hxs : xs = xs.take j ++ b :: xs.drop (j + 1) := by
    conv_lhs => rw [← List.take_append_drop j xs, List.drop_eq_getElem_cons hjlen]
    rw [← hget]
    rfl
  have hset : xs.set j a = xs.take j ++ a :: xs.drop (j + 1) :=
    List.set_eq_take_cons_drop a hjlen
  rw [hset]
  have hperm : (b :: (xs.take j ++ a :: xs.drop (j + 1))).Perm
      (a :: (xs.take j ++ b :: xs.drop (j + 1))) := by
    refine ((List.perm_middle).cons b).trans ?_
    refine (List.Perm.swap a b _).trans ?_
    exact (List.perm_middle.symm).cons a
  rw [← hxs] at hperm
  exact hperm

theorem set_set_perm {α : Type} (l : List α) (i j : Nat) (a b : α)
    (hi : l.get? i = some a) (hj : l.get? j = some b) :
    ((l.set i b).set j a).Perm l := by
  induction l generalizing i j with
  | nil => simp at hi
  | cons x xs ih =>
    cases i with
    | zero =>
      have hxa : x = a := by simpa using hi
      cases j with
      | zero =>
        subst hxa
        show (x :: xs).Perm (x :: xs)
        exact List.Perm.refl _
      | succ j' =>
        have hj' : xs.get? j' = some b := by simpa using hj
        subst hxa
        show (b :: xs.set j' x).Perm (x :: xs)
        exact cons_set_perm xs j' x b hj'
    | succ i' =>
      cases j with
      | zero =>
        have hxb : x = b := by simpa using hj
        have hi' : xs.get? i' = some a := by simpa using hi
        subst hxb
        show (a :: xs.set i' x).Perm (x :: xs)
        exact cons_set_perm xs i' x a hi'
      | succ j' =>
        have hi' : xs.get? i' = some a := by simpa using hi
        have hj' : xs.get? j' = some b := by simpa using hj
        show (x :: (xs.set i' b).set j' a).Perm (x :: xs)
        exact (ih i' j' hi' hj').cons x

theorem swapIdx_perm {α : Type} (l : List α) (i j : Nat) : (swapIdx l i j).Perm l := by
  unfold swapIdx
  cases hi : l.get? i with
  | none => exact List.Perm.refl l
  | some a =>
    cases hj : l.get? j with
    | none => exact List.Perm.refl l
    | some b => exact set_set_perm l i j a b hi hj

theorem shuffleGo_perm {α : Type} (rnd : Nat → Nat) (l : List α) (n : Nat) :
    (shuffleGo rnd l n).Perm l := by
  induction n generalizing l with
  | zero => exact List.Perm.refl l
  | succ n' ih =>
    simp only [shuffleGo]
    exact (ih _).trans (swapIdx_perm l (n' + 1) (rnd (n' + 1) % (n' + 2)))

theorem shuffleArray_perm {α : Type} (l : List α) (rnd : Nat → Nat) :
    (shuffleArray l rnd).Perm l :=
  shuffleGo_perm rnd l (l.length - 1)

/-! Association-list `Map` model. -/

theorem mapGet_mapSet_self (m : List (String × PatchResult)) (key : String)
    (v : PatchResult) : mapGet (mapSet m key v) key = some v := by
  induction m with
  | nil => simp [mapSet, mapGet]
  | cons kv m' ih =>
    by_cases hk : kv.1 = key
    · simp [mapSet, mapGet, hk]
    · simp [mapSet, mapGet, hk, ih]

theorem mapGet_mapSet_other (m : List (String × PatchResult)) (key k : String)
    (v : PatchResult) (hne : k ≠ key) : mapGet (mapSet m key v) k = mapGet m k := by
  induction m with
  | nil => simp [mapSet, mapGet, Ne.symm hne]
  | cons kv m' ih =>
    by_cases hk : kv.1 = key
    · subst hk
      simp [mapSet, mapGet, Ne.symm hne]
    · by_cases hx : kv.1 = k
      · simp [mapSet, mapGet, hk, hx, hne]
      · simp [mapSet, mapGet, hk, hx, ih]

theorem mapSet_length_fresh (m : List (String × PatchResult)) (key : String)
    (v : PatchResult) (h : mapGet m key = none) :
    (mapSet m key v).length = m.length + 1 := by
  induction m with
  | nil => rfl
  | cons kv m' ih =>
    by_cases hk : kv.1 = key
    · rw [mapGet, if_pos hk] at h
      cases h
    · rw [mapGet, if_neg hk] at h
      simp [mapSet, hk, ih h]

/-! Batch processing. -/

theorem batchAux_mapGet_not_mem (read : String → Except (List Char) (List Char))
    (exec : List Char → Except (List Char) (List Char)) (config : PatchConfig)
    (orcs : Nat → Oracle) (ps : List String) (n : Nat)
    (acc : List (String × PatchResult)) (p : String) (hp : p ∉ ps) :
    mapGet (batchAux read exec config orcs ps n acc) p = mapGet acc p := by
  induction ps generalizing n acc with
  | nil => rfl
  | cons q ps' ih =>
    simp only [batchAux]
    rw [ih (n + 1) _ (fun h => hp (List.mem_cons_of_mem q h))]
    exact mapGet_mapSet_other acc q p _ (fun h => hp (h ▸ List.mem_cons_self q ps'))

theorem batchAux_mapGet_get (read : String → Except (List Char) (List Char))
    (exec : List Char → Except (List Char) (List Char)) (config : PatchConfig)
    (orcs : Nat → Oracle) (ps : List String) (hnd : ps.Nodup) (n : Nat)
    (acc : List (String × PatchResult)) (idx : Nat) (hidx : idx < ps.length) :
    mapGet (batchAux read exec config orcs ps n acc) (ps.get ⟨idx, hidx⟩) =
      some (runWithPatches read exec (ps.get ⟨idx, hidx⟩) config (orcs (n + idx))) := by
  induction ps generalizing n acc idx with
  | nil => simp at hidx
  | cons q ps' ih =>
    cases idx with
    | zero =>
      have hq0 : (q :: ps').get ⟨0, hidx⟩ = q := rfl
      rw [hq0]
      simp only [batchAux]
      have hq : q ∉ ps' := (List.nodup_cons.mp hnd).1
      rw [batchAux_mapGet_not_mem read exec config orcs ps' (n + 1) _ q hq]
      rw [mapGet_mapSet_self, Nat.add_zero]
    | succ idx' =>
      have hidx' : idx' < ps'.length := by simpa using hidx
      have hqs : (q :: ps').get ⟨idx' + 1, hidx⟩ = ps'.get ⟨idx', hidx'⟩ := rfl
      rw [hqs]
      simp only [batchAux]
      have harith : n + (idx' + 1) = (n + 1) + idx' := by omega
      rw [harith]
      exact ih (List.nodup_cons.mp hnd).2 (n + 1) _ idx' hidx'

theorem batchAux_length (read : String → Except (List Char) (List Char))
    (exec : List Char → Except (List Char) (List Char)) (config : PatchConfig)
    (orcs : Nat → Oracle) (ps : List String) (hnd : ps.Nodup) (n : Nat)
    (acc : List (String × PatchResult)) (hacc : ∀ p ∈ ps, mapGet acc p = none) :
    (batchAux read exec config orcs ps n acc).length = acc.length + ps.length := by
  induction ps generalizing n acc with
  | nil => rfl
  | cons q ps' ih =>
    simp only [batchAux]
    have hfresh : mapGet acc q = none := hacc q (List.mem_cons_self q ps')
    have hacc' : ∀ p ∈ ps', mapGet (mapSet acc q (runWithPatches read exec q config
        (orcs n))) p = none := by
      intro p hp
      have hpq : p ≠ q := by
        intro he
        exact (List.nodup_cons.mp hnd).1 (he ▸ hp)
      rw [mapGet_mapSet_other acc q p _ hpq]
      exact hacc p (List.mem_cons_of_mem q hp)
    rw [ih (List.nodup_cons.mp hnd).2 (n + 1) _ hacc']
    rw [mapSet_length_fresh acc q _ hfresh]
    simp only [List.length_cons]
    omega

/-! Chunk selection via the cursor value at a given marker. -/

theorem chunksFrom_getD_eq (s : List Char) (plan : List (List Char))
    (ms : List (Nat × Nat × Nat)) (k t : Nat) (ht : t < ms.length) :
    (chunksFrom s plan k ms).getD t [] =
      (applyChunk plan (cursorFold plan k (ms.take t))
        (indentOf s (ms.getD t (0, 0, 0))) (matchedOf s (ms.getD t (0, 0, 0)))).1 := by
  induction ms generalizing k t with
  | nil => simp at ht
  | cons m ms' ih =>
    cases t with
    | zero => rfl
    | succ t' =>
      simp only [chunksFrom, List.getD_cons_succ, List.take_succ_cons, cursorFold]
      rw [applyChunk_snd]
      exact ih (stepCursor plan k) t' (by simpa using ht)

theorem allMatchesAux_mem_facts (s : List Char) (fuel i : Nat) :
    ∀ m ∈ allMatchesAux s fuel i, ∃ j, MatchFacts s j m := by
  induction fuel generalizing i with
  | zero => simp [allMatchesAux]
  | succ fuel' ih =>
    simp only [allMatchesAux]
    cases h : findMatchFrom s i with
    | none => simp
    | some m0 =>
      intro m hm
      rcases List.mem_cons.mp hm with rfl | hm
      · exact ⟨i, findMatchFrom_facts s i m h⟩
      · exact ih m0.2.2 m hm

theorem allMatches_getD_facts (s : List Char) (t : Nat)
    (ht : t < (allMatches s).length) :
    ∃ j, MatchFacts s j ((allMatches s).getD t (0, 0, 0)) := by
  rw [List.getD_eq_getElem _ _ ht]
  exact allMatchesAux_mem_facts s _ 0 _ (List.getElem_mem ht)

/-! Claim theorems. -/

/-- C7: for every document with zero line-exact marker occurrences (no line,
under the normalized line-terminator notion, trims to exactly `Car();`) and
every configuration, the outcome is a structured record whose patched text
equals the input exactly, with `patchesApplied = 0` and the error entry
`"No Car(); markers found in file"`; nothing is thrown (the model is a total
function into `PatchResult`). -/
theorem c7_no_markers (content : List Char) (config : PatchConfig) (orc : Oracle)
    (h : ∀ line ∈ splitLines content, jsTrim line ≠ carToken) :
    loadAndPatchContent content config orc =
      { originalFile := content, patchedFile := content, patchesApplied := 0,
        executionResult := none, errors := [noMarkersMsg] } := by
  have hmc := markerCount_zero_of_no_marker_line content h
  unfold loadAndPatchContent
  simp [hmc]

theorem c7_no_markers_witness :
    (∀ line ∈ splitLines "hello\nworld\nCar(); nope".toList,
        jsTrim line ≠ carToken) ∧
      loadAndPatchContent "hello\nworld\nCar(); nope".toList
          { patches := ["X();".toList] } oracle0 =
        { originalFile := "hello\nworld\nCar(); nope".toList,
          patchedFile := "hello\nworld\nCar(); nope".toList, patchesApplied := 0,
          executionResult := none, errors := [noMarkersMsg] } :=
  ⟨by decide, c7_no_markers "hello\nworld\nCar(); nope".toList
    { patches := ["X();".toList] } oracle0 (by decide)⟩

/-- C5 counterexample: with `preserveOriginal := false` on a document that
does get patched, the outcome still retains the pre-patch text, so "the
outcome retains the original pre-patch text exactly when preserveOriginal is
set" is false at this input. -/
theorem c5_counterexample :
    ¬ (((loadAndPatchContent "Car();".toList
          { patches := ["X();".toList], preserveOriginal := false } oracle0).originalFile =
            "Car();".toList) ↔
        (({ patches := ["X();".toList],
            preserveOriginal := false : PatchConfig }).preserveOriginal = true)) := by
  decide

/-- C5 amended: `preserveOriginal` has no effect at all — the outcome always
retains the pre-patch text, and the entire result (patched text and
`patchesApplied` included) is independent of the flag. -/
theorem c5_amended (content : List Char) (config : PatchConfig) (orc : Oracle)
    (b : Bool) :
    loadAndPatchContent content { config with preserveOriginal := b } orc =
      loadAndPatchContent content config orc ∧
    (loadAndPatchContent content config orc).originalFile = content := by
  constructor
  · cases config
    rfl
  · unfold loadAndPatchContent
    by_cases h : markerCount content = 0 <;> simp [h]

/-- C8: with `addFakePatches` enabled, the plan handed to the applicator
before the optional shuffle is exactly the real fragments in order followed
by exactly `markerCount` decoys, and decoy generation is total: it yields
exactly `n` fragments for every `n` and every randomness. -/
theorem c8_plan (content : List Char) (config : PatchConfig) (orc : Oracle)
    (h : config.addFakePatches = true) :
    prePlan config (markerCount content) orc =
      config.patches ++ generateFakePatches (markerCount content) orc.decoy ∧
    (generateFakePatches (markerCount content) orc.decoy).length =
      markerCount content ∧
    (∀ n : Nat, ∀ r : DecoyRandomness, (generateFakePatches n r).length = n) := by
  refine ⟨?_, generateFakePatches_length _ _, fun n r => generateFakePatches_length n r⟩
  unfold prePlan
  rw [h]
  simp

theorem c8_plan_witness :
    ({ patches := ["X();".toList], addFakePatches := true : PatchConfig }).addFakePatches
        = true ∧
      (prePlan { patches := ["X();".toList], addFakePatches := true }
          (markerCount "Car();".toList) oracle0 =
        ({ patches := ["X();".toList], addFakePatches := true : PatchConfig }).patches ++
          generateFakePatches (markerCount "Car();".toList) oracle0.decoy ∧
      (generateFakePatches (markerCount "Car();".toList) oracle0.decoy).length =
        markerCount "Car();".toList ∧
      (∀ n : Nat, ∀ r : DecoyRandomness, (generateFakePatches n r).length = n)) :=
  ⟨rfl, c8_plan "Car();".toList
    { patches := ["X();".toList], addFakePatches := true } oracle0 rfl⟩

theorem decoyR1_ne_decoyR2 : decoyR1 ≠ decoyR2 := by
  intro h
  have h4 := congrArg DecoyRandomness.hex4a h
  exact absurd h4 (by decide)

/-- C3 counterexample: two separate `generate(1)` calls whose random tokens
differ but whose template draws both select the static conditional template
yield byte-identical output, refuting "two separate generate(n) calls never
yield an identical sequence". -/
theorem c3_counterexample :
    decoyR1 ≠ decoyR2 ∧ (0 : Nat) < 1 ∧
      generateFakePatches 1 decoyR1 = generateFakePatches 1 decoyR2 :=
  ⟨decoyR1_ne_decoyR2, by decide, by decide⟩

/-- C3 amended: the random tokens of the decoy pool are instantiated once per
call — not on every draw — and one template holds no randomness at all, so
for every `n` there are two distinct calls of `generate(n)` returning the
same byte-for-byte fragment sequence. -/
theorem c3_amended (n : Nat) :
    ∃ r1 r2 : DecoyRandomness, r1 ≠ r2 ∧
      generateFakePatches n r1 = generateFakePatches n r2 := by
  refine ⟨decoyR1, decoyR2, decoyR1_ne_decoyR2, ?_⟩
  rw [generateFakePatches_all_static decoyR1 (fun _ => rfl) n,
    generateFakePatches_all_static decoyR2 (fun _ => rfl) n]

theorem jsReplaceAll_snd_nonempty (s : List Char) (plan : List (List Char))
    (hne : ∀ f ∈ plan, f ≠ []) :
    (jsReplaceAll s plan).2 = min (allMatches s).length plan.length := by
  rw [jsReplaceAll_eq_render]
  show cursorFold plan 0 (allMatches s) = _
  rw [cursorFold_nonempty plan hne (allMatches s) 0 (by omega)]
  omega

/-- C6 counterexample: with the plan `["", "X();"]` on a two-marker document,
the unshuffled run applies 0 fragments (the empty head stalls the cursor)
while the shuffled run (swap to `["X();", ""]`) applies 1 — shuffling changed
how many markers receive a fragment, refuting the claim as stated. -/
theorem c6_counterexample :
    (loadAndPatchContent "Car();\nCar();".toList
        { patches := [[], "X();".toList], randomizeOrder := true } oracle0).patchesApplied ≠
      (loadAndPatchContent "Car();\nCar();".toList
        { patches := [[], "X();".toList], randomizeOrder := false } oracle0).patchesApplied := by
  decide

/-- C6 amended: the shuffle is applied exactly once, to the combined plan,
before any marker is assigned, and yields a permutation of it (same
multiset); and for plans all of whose fragments are non-empty, the number of
markers that receive a fragment is the same shuffled or not. -/
theorem c6_amended (content : List Char) (config : PatchConfig) (orc : Oracle)
    (hne : ∀ f ∈ prePlan config (markerCount content) orc, f ≠ []) :
    (shuffleArray (prePlan config (markerCount content) orc) orc.shuffle).Perm
      (prePlan config (markerCount content) orc) ∧
    (loadAndPatchContent content { config with randomizeOrder := true }
        orc).patchesApplied =
      (loadAndPatchContent content { config with randomizeOrder := false }
        orc).patchesApplied := by
  refine ⟨shuffleArray_perm _ _, ?_⟩
  by_cases hmc : markerCount content = 0
  · unfold loadAndPatchContent
    simp [hmc]
  · have hpre : ∀ b : Bool, prePlan { config with randomizeOrder := b }
        (markerCount content) orc = prePlan config (markerCount content) orc := by
      intro b
      cases config
      rfl
    have happlied : ∀ b : Bool,
        (loadAndPatchContent content { config with randomizeOrder := b }
          orc).patchesApplied =
        (jsReplaceAll content (plannedPatches { config with randomizeOrder := b }
          (markerCount content) orc)).2 := by
      intro b
      unfold loadAndPatchContent
      simp [hmc]
    rw [happlied true, happlied false]
    have hplanT : plannedPatches { config with randomizeOrder := true }
        (markerCount content) orc =
        shuffleArray (prePlan config (markerCount content) orc) orc.shuffle := by
      unfold plannedPatches
      rw [hpre true]
      simp
    have hplanF : plannedPatches { config with randomizeOrder := false }
        (markerCount content) orc = prePlan config (markerCount content) orc := by
      unfold plannedPatches
      rw [hpre false]
      simp
    rw [hplanT, hplanF]
    have hperm := shuffleArray_perm (prePlan config (markerCount content) orc) orc.shuffle
    have hneS : ∀ f ∈ shuffleArray (prePlan config (markerCount content) orc)
        orc.shuffle, f ≠ [] := fun f hf => hne f (hperm.mem_iff.mp hf)
    rw [jsReplaceAll_snd_nonempty content _ hneS,
      jsReplaceAll_snd_nonempty content _ hne, hperm.length_eq]

theorem c6_amended_witness :
    (∀ f ∈ prePlan { patches := ["X();".toList] }
        (markerCount "Car();\nCar();".toList) oracle0, f ≠ []) ∧
      ((shuffleArray (prePlan { patches := ["X();".toList] }
          (markerCount "Car();\nCar();".toList) oracle0) oracle0.shuffle).Perm
        (prePlan { patches := ["X();".toList] }
          (markerCount "Car();\nCar();".toList) oracle0) ∧
      (loadAndPatchContent "Car();\nCar();".toList
          { patches := ["X();".toList], randomizeOrder := true } oracle0).patchesApplied =
        (loadAndPatchContent "Car();\nCar();".toList
          { patches := ["X();".toList], randomizeOrder := false } oracle0).patchesApplied) :=
  ⟨by decide, c6_amended "Car();\nCar();".toList { patches := ["X();".toList] }
    oracle0 (by decide)⟩

/-- C1 counterexample: the plan `[""]` is shorter than the marker count 2 and
decoys are disabled, yet `patchesApplied` is 0, not the plan length 1 — the
empty-string fragment stalls the cursor, so the claim as stated fails. -/
theorem c1_counterexample :
    ({ patches := [[]], addFakePatches := false : PatchConfig }).patches.length <
        markerCount "Car();\nCar();".toList ∧
      (loadAndPatchContent "Car();\nCar();".toList
          { patches := [[]], addFakePatches := false } oracle0).patchesApplied ≠
        ({ patches := [[]], addFakePatches := false : PatchConfig }).patches.length := by
  decide

/-- C1 amended (every plan fragment non-empty): substitution walks the
matches in strictly ascending line order; the `t`-th marker receives the
`t`-th plan element when one exists and is otherwise left verbatim; the
applied count is `min markerCount planLength`; when the plan is shorter than
the marker count, every marker beyond the plan length still contains the
literal `Car();` and the applied count equals the plan length; and on a
configuration with decoys and shuffling disabled `loadAndPatchContent`
reports exactly this replacement and count. -/
theorem c1_amended (s : List Char) (plan : List (List Char))
    (hne : ∀ f ∈ plan, f ≠ []) :
    List.Chain' (fun m m' => lineNumAt s m.2.1 < lineNumAt s m'.2.1) (allMatches s) ∧
    (jsReplaceAll s plan).1 =
      assemble s 0 (allMatches s) (chunksFrom s plan 0 (allMatches s)) ∧
    (∀ t, t < (allMatches s).length →
      (chunksFrom s plan 0 (allMatches s)).getD t [] =
        if t < plan.length then
          indentPatch (indentOf s ((allMatches s).getD t (0, 0, 0))) (plan.getD t [])
        else matchedOf s ((allMatches s).getD t (0, 0, 0))) ∧
    (jsReplaceAll s plan).2 = min (allMatches s).length plan.length ∧
    (plan.length < (allMatches s).length →
      (∀ t, plan.length ≤ t → t < (allMatches s).length →
        carToken <:+: (chunksFrom s plan 0 (allMatches s)).getD t []) ∧
      (jsReplaceAll s plan).2 = plan.length) ∧
    (∀ config : PatchConfig, ∀ orc : Oracle, config.patches = plan →
      config.addFakePatches = false → config.randomizeOrder = false →
      markerCount s ≠ 0 →
      (loadAndPatchContent s config orc).patchedFile = (jsReplaceAll s plan).1 ∧
      (loadAndPatchContent s config orc).patchesApplied = (jsReplaceAll s plan).2) := by
  refine ⟨allMatches_chain s, ?_, ?_, jsReplaceAll_snd_nonempty s plan hne, ?_, ?_⟩
  · rw [jsReplaceAll_eq_render]
  · intro t ht
    have h := chunksFrom_getD_nonempty s plan hne (allMatches s) 0 t ht
    simpa using h
  · intro hlt
    constructor
    · intro t ht1 ht2
      have h := chunksFrom_getD_nonempty s plan hne (allMatches s) 0 t ht2
      rw [Nat.zero_add] at h
      rw [h, if_neg (by omega)]
      obtain ⟨j, hfacts⟩ := allMatches_getD_facts s t ht2
      exact hfacts.token_infix_matched
    · rw [jsReplaceAll_snd_nonempty s plan hne]
      omega
  · intro config orc hp haf hro hmc
    unfold loadAndPatchContent plannedPatches prePlan
    rw [haf, hro, hp]
    simp [hmc]

theorem c1_amended_witness :
    (∀ f ∈ (["X();".toList] : List (List Char)), f ≠ []) ∧
      (List.Chain' (fun m m' => lineNumAt "a\nCar();\nb\n  Car();\nc".toList m.2.1 <
          lineNumAt "a\nCar();\nb\n  Car();\nc".toList m'.2.1)
        (allMatches "a\nCar();\nb\n  Car();\nc".toList) ∧
      (jsReplaceAll "a\nCar();\nb\n  Car();\nc".toList ["X();".toList]).1 =
        assemble "a\nCar();\nb\n  Car();\nc".toList 0
          (allMatches "a\nCar();\nb\n  Car();\nc".toList)
          (chunksFrom "a\nCar();\nb\n  Car();\nc".toList ["X();".toList] 0
            (allMatches "a\nCar();\nb\n  Car();\nc".toList)) ∧
      (∀ t, t < (allMatches "a\nCar();\nb\n  Car();\nc".toList).length →
        (chunksFrom "a\nCar();\nb\n  Car();\nc".toList ["X();".toList] 0
            (allMatches "a\nCar();\nb\n  Car();\nc".toList)).getD t [] =
          if t < (["X();".toList] : List (List Char)).length then
            indentPatch (indentOf "a\nCar();\nb\n  Car();\nc".toList
                ((allMatches "a\nCar();\nb\n  Car();\nc".toList).getD t (0, 0, 0)))
              ((["X();".toList] : List (List Char)).getD t [])
          else matchedOf "a\nCar();\nb\n  Car();\nc".toList
            ((allMatches "a\nCar();\nb\n  Car();\nc".toList).getD t (0, 0, 0))) ∧
      (jsReplaceAll "a\nCar();\nb\n  Car();\nc".toList ["X();".toList]).2 =
        min (allMatches "a\nCar();\nb\n  Car();\nc".toList).length
          (["X();".toList] : List (List Char)).length ∧
      ((["X();".toList] : List (List Char)).length <
          (allMatches "a\nCar();\nb\n  Car();\nc".toList).length →
        (∀ t, (["X();".toList] : List (List Char)).length ≤ t →
          t < (allMatches "a\nCar();\nb\n  Car();\nc".toList).length →
          carToken <:+: (chunksFrom "a\nCar();\nb\n  Car();\nc".toList
            ["X();".toList] 0 (allMatches "a\nCar();\nb\n  Car();\nc".toList)).getD t []) ∧
        (jsReplaceAll "a\nCar();\nb\n  Car();\nc".toList ["X();".toList]).2 =
          (["X();".toList] : List (List Char)).length) ∧
      (∀ config : PatchConfig, ∀ orc : Oracle, config.patches = ["X();".toList] →
        config.addFakePatches = false → config.randomizeOrder = false →
        markerCount "a\nCar();\nb\n  Car();\nc".toList ≠ 0 →
        (loadAndPatchContent "a\nCar();\nb\n  Car();\nc".toList config orc).patchedFile =
          (jsReplaceAll "a\nCar();\nb\n  Car();\nc".toList ["X();".toList]).1 ∧
        (loadAndPatchContent "a\nCar();\nb\n  Car();\nc".toList config orc).patchesApplied =
          (jsReplaceAll "a\nCar();\nb\n  Car();\nc".toList ["X();".toList]).2)) :=
  ⟨by decide, c1_amended "a\nCar();\nb\n  Car();\nc".toList ["X();".toList] (by decide)⟩

/-- C10: an empty-string element at position `j` of the plan (all earlier
elements non-empty) halts substitution there: the applied count is
`min markerCount j`, markers before `j` receive the plan elements in order,
the marker that would receive the empty element and every later marker are
left verbatim (each still contains the literal `Car();`), and the output is
the corresponding rendering. -/
theorem c10_empty_stall (s : List Char) (plan : List (List Char)) (j : Nat)
    (hj : j < plan.length) (hempty : plan.getD j [] = [])
    (hbefore : ∀ t, t < j → plan.getD t [] ≠ []) :
    (jsReplaceAll s plan).2 = min (allMatches s).length j ∧
    (∀ t, t < (allMatches s).length →
      (chunksFrom s plan 0 (allMatches s)).getD t [] =
        if t < j then
          indentPatch (indentOf s ((allMatches s).getD t (0, 0, 0))) (plan.getD t [])
        else matchedOf s ((allMatches s).getD t (0, 0, 0))) ∧
    (∀ t, j ≤ t → t < (allMatches s).length →
      carToken <:+: (chunksFrom s plan 0 (allMatches s)).getD t []) ∧
    (jsReplaceAll s plan).1 =
      assemble s 0 (allMatches s) (chunksFrom s plan 0 (allMatches s)) := by
  have hchunks : ∀ t, t < (allMatches s).length →
      (chunksFrom s plan 0 (allMatches s)).getD t [] =
        if t < j then
          indentPatch (indentOf s ((allMatches s).getD t (0, 0, 0))) (plan.getD t [])
        else matchedOf s ((allMatches s).getD t (0, 0, 0)) := by
    intro t ht
    have h := chunksFrom_getD_stall s plan j hbefore hempty (by omega)
      (allMatches s) 0 t ht (by omega)
    simpa using h
  refine ⟨?_, hchunks, ?_, ?_⟩
  · rw [jsReplaceAll_eq_render]
    show cursorFold plan 0 (allMatches s) = _
    rw [cursorFold_stall plan j hbefore hempty (by omega) (allMatches s) 0 (by omega)]
    omega
  · intro t ht1 ht2
    rw [hchunks t ht2, if_neg (by omega)]
    obtain ⟨j', hfacts⟩ := allMatches_getD_facts s t ht2
    exact hfacts.token_infix_matched
  · rw [jsReplaceAll_eq_render]

theorem c10_empty_stall_witness :
    ((1 : Nat) < (["A();".toList, [], "B();".toList] : List (List Char)).length ∧
      (["A();".toList, [], "B();".toList] : List (List Char)).getD 1 [] = [] ∧
      (∀ t, t < 1 → (["A();".toList, [], "B();".toList] : List (List Char)).getD t [] ≠ [])) ∧
      ((jsReplaceAll "Car();\nCar();".toList ["A();".toList, [], "B();".toList]).2 =
        min (allMatches "Car();\nCar();".toList).length 1 ∧
      (∀ t, t < (allMatches "Car();\nCar();".toList).length →
        (chunksFrom "Car();\nCar();".toList ["A();".toList, [], "B();".toList] 0
            (allMatches "Car();\nCar();".toList)).getD t [] =
          if t < 1 then
            indentPatch (indentOf "Car();\nCar();".toList
                ((allMatches "Car();\nCar();".toList).getD t (0, 0, 0)))
              ((["A();".toList, [], "B();".toList] : List (List Char)).getD t [])
          else matchedOf "Car();\nCar();".toList
            ((allMatches "Car();\nCar();".toList).getD t (0, 0, 0))) ∧
      (∀ t, 1 ≤ t → t < (allMatches "Car();\nCar();".toList).length →
        carToken <:+: (chunksFrom "Car();\nCar();".toList
          ["A();".toList, [], "B();".toList] 0
          (allMatches "Car();\nCar();".toList)).getD t []) ∧
      (jsReplaceAll "Car();\nCar();".toList ["A();".toList, [], "B();".toList]).1 =
        assemble "Car();\nCar();".toList 0 (allMatches "Car();\nCar();".toList)
          (chunksFrom "Car();\nCar();".toList ["A();".toList, [], "B();".toList] 0
            (allMatches "Car();\nCar();".toList))) :=
  ⟨⟨by decide, by decide, by decide⟩,
    c10_empty_stall "Car();\nCar();".toList ["A();".toList, [], "B();".toList] 1
      (by decide) (by decide) (by decide)⟩

/-- C2: whenever the `t`-th marker is substituted (the cursor points at an
existing, non-empty plan element), the emitted chunk is the indent-adjusted
fragment (each non-blank fragment line prefixed with the captured indent,
each blank line kept as is), that chunk appears verbatim inside the patched
text, and there is a marker line of the document (trimming to exactly
`Car();`) such that every line-terminator-free non-blank line of the
fragment occurs in the chunk as a full line prefixed with precisely that
marker line's leading whitespace, while every such blank line occurs in the
chunk unchanged. -/
theorem c2_indentation (s : List Char) (plan : List (List Char)) (t : Nat)
    (ht : t < (allMatches s).length)
    (hk : cursorFold plan 0 ((allMatches s).take t) < plan.length)
    (hnem : plan.getD (cursorFold plan 0 ((allMatches s).take t)) [] ≠ []) :
    (chunksFrom s plan 0 (allMatches s)).getD t [] =
      indentPatch (indentOf s ((allMatches s).getD t (0, 0, 0)))
        (plan.getD (cursorFold plan 0 ((allMatches s).take t)) []) ∧
    (chunksFrom s plan 0 (allMatches s)).getD t [] <:+: (jsReplaceAll s plan).1 ∧
    ∃ line ∈ splitLines s, jsTrim line = carToken ∧
      ∀ L ∈ splitNl (plan.getD (cursorFold plan 0 ((allMatches s).take t)) []),
        (∀ c ∈ L, isLineTerm c = false) →
        (L.any (fun c => !isJsWs c) = true →
          line.takeWhile isJsWs ++ L ∈
            splitLines ((chunksFrom s plan 0 (allMatches s)).getD t [])) ∧
        (L.any (fun c => !isJsWs c) = false →
          L ∈ splitLines ((chunksFrom s plan 0 (allMatches s)).getD t [])) := by
  have hch : (chunksFrom s plan 0 (allMatches s)).getD t [] =
      indentPatch (indentOf s ((allMatches s).getD t (0, 0, 0)))
        (plan.getD (cursorFold plan 0 ((allMatches s).take t)) []) := by
    rw [chunksFrom_getD_eq s plan (allMatches s) 0 t ht]
    unfold applyChunk
    rw [if_pos hk, if_neg hnem]
  refine ⟨hch, ?_, ?_⟩
  · rw [jsReplaceAll_eq_render]
    show _ <:+: assemble s 0 (allMatches s) (chunksFrom s plan 0 (allMatches s))
    exact getD_infix_assemble s (allMatches s) _ 0 t ht
      (chunksFrom_length s plan (allMatches s) 0)
  · obtain ⟨j, hfacts⟩ := allMatches_getD_facts s t ht
    obtain ⟨line, hline, htrim, htw⟩ := hfacts.marker_line
    refine ⟨line, hline, htrim, ?_⟩
    intro L hL hLnl
    have hlines := indentPatch_lines
      (indentOf s ((allMatches s).getD t (0, 0, 0)))
      (plan.getD (cursorFold plan 0 ((allMatches s).take t)) []) L hL hLnl
    rw [hch, htw]
    exact hlines

theorem c2_indentation_witness :
    ((0 : Nat) < (allMatches "  Car();".toList).length ∧
      cursorFold ["if (x) \x7b\n  y();\n\x7d".toList] 0
          ((allMatches "  Car();".toList).take 0) <
        (["if (x) \x7b\n  y();\n\x7d".toList] : List (List Char)).length ∧
      (["if (x) \x7b\n  y();\n\x7d".toList] : List (List Char)).getD
        (cursorFold ["if (x) \x7b\n  y();\n\x7d".toList] 0
          ((allMatches "  Car();".toList).take 0)) [] ≠ []) ∧
    ((chunksFrom "  Car();".toList ["if (x) \x7b\n  y();\n\x7d".toList] 0
        (allMatches "  Car();".toList)).getD 0 [] =
      indentPatch (indentOf "  Car();".toList
          ((allMatches "  Car();".toList).getD 0 (0, 0, 0)))
        ((["if (x) \x7b\n  y();\n\x7d".toList] : List (List Char)).getD
          (cursorFold ["if (x) \x7b\n  y();\n\x7d".toList] 0
            ((allMatches "  Car();".toList).take 0)) []) ∧
    (chunksFrom "  Car();".toList ["if (x) \x7b\n  y();\n\x7d".toList] 0
        (allMatches "  Car();".toList)).getD 0 [] <:+:
      (jsReplaceAll "  Car();".toList ["if (x) \x7b\n  y();\n\x7d".toList]).1 ∧
    ∃ line ∈ splitLines "  Car();".toList, jsTrim line = carToken ∧
      ∀ L ∈ splitNl ((["if (x) \x7b\n  y();\n\x7d".toList] : List (List Char)).getD
          (cursorFold ["if (x) \x7b\n  y();\n\x7d".toList] 0
            ((allMatches "  Car();".toList).take 0)) []),
        (∀ c ∈ L, isLineTerm c = false) →
        (L.any (fun c => !isJsWs c) = true →
          line.takeWhile isJsWs ++ L ∈
            splitLines ((chunksFrom "  Car();".toList
              ["if (x) \x7b\n  y();\n\x7d".toList] 0
              (allMatches "  Car();".toList)).getD 0 [])) ∧
        (L.any (fun c => !isJsWs c) = false →
          L ∈ splitLines ((chunksFrom "  Car();".toList
            ["if (x) \x7b\n  y();\n\x7d".toList] 0
            (allMatches "  Car();".toList)).getD 0 []))) :=
  ⟨⟨by decide, by decide, by decide⟩,
    c2_indentation "  Car();".toList ["if (x) \x7b\n  y();\n\x7d".toList] 0
      (by decide) (by decide) (by decide)⟩

/-- C9: batch processing is totally isolating — the result mapping holds one
entry per identity, and each identity's outcome is exactly the outcome of
running it individually (with that iteration's randomness), no matter how
any other identity fails (unreadable document, zero markers, execution
fault): the per-entry value depends only on that identity. -/
theorem c9_batch_isolation (read : String → Except (List Char) (List Char))
    (exec : List Char → Except (List Char) (List Char)) (paths : List String)
    (hnd : paths.Nodup) (config : PatchConfig) (orcs : Nat → Oracle) :
    (∀ idx, ∀ hidx : idx < paths.length,
      mapGet (batchProcess read exec paths config orcs) (paths.get ⟨idx, hidx⟩) =
        some (runWithPatches read exec (paths.get ⟨idx, hidx⟩) config (orcs idx))) ∧
    (batchProcess read exec paths config orcs).length = paths.length := by
  constructor
  · intro idx hidx
    have h := batchAux_mapGet_get read exec config orcs paths hnd 0 [] idx hidx
    simpa using h
  · have h := batchAux_length read exec config orcs paths hnd 0 []
      (fun p _ => rfl)
    simpa using h

theorem c9_batch_isolation_witness :
    (["a", "b", "c"] : List String).Nodup ∧
      ((∀ idx, ∀ hidx : idx < (["a", "b", "c"] : List String).length,
        mapGet (batchProcess
            (fun p => if p = "b" then Except.error "boom".toList
              else Except.ok "Car();".toList)
            (fun _ => Except.ok "ran".toList) ["a", "b", "c"]
            { patches := ["X();".toList] } (fun _ => oracle0))
          ((["a", "b", "c"] : List String).get ⟨idx, hidx⟩) =
          some (runWithPatches
            (fun p => if p = "b" then Except.error "boom".toList
              else Except.ok "Car();".toList)
            (fun _ => Except.ok "ran".toList)
            ((["a", "b", "c"] : List String).get ⟨idx, hidx⟩)
            { patches := ["X();".toList] } oracle0)) ∧
      (batchProcess
          (fun p => if p = "b" then Except.error "boom".toList
            else Except.ok "Car();".toList)
          (fun _ => Except.ok "ran".toList) ["a", "b", "c"]
          { patches := ["X();".toList] } (fun _ => oracle0)).length =
        (["a", "b", "c"] : List String).length) :=
  ⟨by decide, c9_batch_isolation
    (fun p => if p = "b" then Except.error "boom".toList
      else Except.ok "Car();".toList)
    (fun _ => Except.ok "ran".toList) ["a", "b", "c"] (by decide)
    { patches := ["X();".toList] } (fun _ => oracle0)⟩

example : jsReplaceAll "a\nCar();\nb\nCar();\nc".toList ["X();".toList] =
    ("a\nX();\nb\nCar();\nc".toList, 1) := by decide

example : markerCount "a\nCar();\nb\nCar();\nc".toList = 2 := by decide

example : scanMarkers "a\nCar();\nb\n  Car();\nc".toList = (2, [2, 4]) := by decide

example : jsReplaceAll "x\n\n  Car();".toList ["A\nB".toList] =
    ("x\n\n  A\n\n  B".toList, 1) := by decide

example : jsReplaceAll "Car();\nCar();".toList ["".toList, "X();".toList] =
    ("Car();\nCar();".toList, 0) := by decide

example : markerCount ['x', '\r', 'C', 'a', 'r', '(', ')', ';'] = 1 := by decide

example : jsReplaceAll ['x', '\r', 'C', 'a', 'r', '(', ')', ';'] ["Y();".toList] =
    (['x', '\r', 'Y', '(', ')', ';'], 1) := by decide

example : splitLines ['x', '\r', 'C', 'a', 'r', '(', ')', ';'] =
    [['x'], ['C', 'a', 'r', '(', ')', ';']] := by decide

example : markerCount "Car(); x".toList = 0 := by decide

example : markerCount "foo(); Car();".toList = 0 := by decide

example : markerCount "  Car();  ".toList = 1 := by decide

example : jsReplaceAll "  Car();  \nrest".toList ["y();".toList] =
    ("  y();\nrest".toList, 1) := by decide

example : (loadAndPatchContent "a\nCar();".toList
    { patches := ["X();".toList], addFakePatches := true } oracle0).patchesApplied = 1 := by
  decide

end Carmilla
